import Mathlib

/-!
Verification of the zcrm reconciliation engine against its specification.

This file is a shallow embedding, in Lean 4, of the core logic of the
email-CRM sync agent: the JS string primitives it relies on, the schema
discovery of `sheets.js`, the dedup resolver (`findInvestorByEmail`,
`findInvestorByName`), the record store operations (`addInvestor`,
`updateInvestor`, `appendNotes`), the calendar selectors
(`getNextMeetingWithAttendee`, `getLastMeetingWithAttendee`), the
counterpart grouping of `gmail.js` (`groupEmailsByContact`), the cursor
state machine (`fetchNewEmailsForUser`, `fetchNewEmails`), the classifier
output parsing of `claude.js` (`analyzeEmail`), and the two merge drivers
(`processEmail` of the sync service and `processContact` of the backfill
script).  Theorems at the end settle the specification claims.

Modelling conventions:
  * JS strings are Lean `String`s, but every operation used by the code
    (`toLowerCase`, `trim`, `includes`, `split`, `replace`) is
    re-implemented over `String.data : List Char` so that all definitions
    reduce inside the kernel.  `null`/`undefined` string-valued JS fields
    are modelled as `""`, matching the truthiness tests (`if (x)`,
    `x || y`) the code performs on them.
  * The transport layer (Google APIs) is out of scope; its responses are
    inputs to the embedded functions.
-/

namespace ZCRM

/-! ### JS string primitives -/

/-- JS `s.toLowerCase()` (ASCII case folding, which is all the code needs). -/
def lowerStr (s : String) : String := String.mk (s.data.map Char.toLower)

/-- Helper: does `pre` occur at the start of `l`? -/
def startsWithL : List Char → List Char → Bool
  | [], _ => true
  | _ :: _, [] => false
  | p :: ps, c :: cs => p = c && startsWithL ps cs

/-- Helper: does `needle` occur contiguously inside `hay`? -/
def containsSub (hay needle : List Char) : Bool :=
  match hay with
  | [] => needle.isEmpty
  | _ :: t => startsWithL needle hay || containsSub t needle

/-- JS `hay.includes(needle)`. -/
def strIncludes (hay needle : String) : Bool := containsSub hay.data needle.data

/-- JS whitespace test used by `trim` and `\s`. -/
def isWs (c : Char) : Bool := c = ' ' || c = '\t' || c = '\n' || c = '\r'

/-- JS `s.trim()`. -/
def jsTrim (s : String) : String :=
  String.mk (((s.data.dropWhile isWs).reverse.dropWhile isWs).reverse)

/-- Accumulator-based chunker: `acc` holds the reversed characters of the
token currently being read. -/
def wsChunksAux : List Char → List Char → List String
  | acc, [] => if acc.isEmpty then [] else [String.mk acc.reverse]
  | acc, c :: cs =>
    if isWs c then
      if acc.isEmpty then wsChunksAux [] cs
      else String.mk acc.reverse :: wsChunksAux [] cs
    else wsChunksAux (c :: acc) cs

/-- Maximal chunks of non-whitespace characters.  For an already trimmed
string this is exactly JS `s.split(/\s+/)`. -/
def jsSplitWs (s : String) : List String := wsChunksAux [] s.data

/-- JS `s.split(c)[0]`: the prefix of `s` before the first occurrence of
`c` (all of `s` when `c` does not occur). -/
def beforeFirst (s : String) (c : Char) : String :=
  String.mk (s.data.takeWhile (fun d => d ≠ c))

/-- JS `s.replace(/[._-]/g, ' ')` from the local-part heuristic of
`findInvestorByEmail`. -/
def replaceSeps (s : String) : String :=
  String.mk (s.data.map (fun c => if c = '.' || c = '_' || c = '-' then ' ' else c))

/-! ### Data model

`Analysis` is the classifier's structured output (`analyzeEmail`'s parsed
JSON); `DateTime` is the structured content of an ISO date-time string as
the code consumes it (`split('T')[0]`, `getHours`, `getMinutes`, and
comparison of `new Date(...)` values, modelled by the absolute stamp
`ts`); `CalEvent` is a calendar event as read by `processEmail` and
`processContact` (fields absent from the JS object, such as
`calendarLink` on attendee-search results, are `""`/`false`, matching the
`|| ''` / `|| false` fallbacks at every read site); `Email` is a parsed
Gmail message; `Investor` is one stored CRM row under the standard schema
in which every canonical column is bound. -/

structure Analysis where
  investorName : String
  company : String
  meetingStatus : String
  meetingDate : String
  noteSummary : String
  isVCInvestor : Bool
  isRelevant : Bool
deriving DecidableEq, Repr

structure DateTime where
  date : String
  hour : Nat
  minute : Nat
  ts : Int
deriving DecidableEq, Repr

structure CalEvent where
  id : String
  title : String
  start : DateTime
  status : String
  calendarLink : String
  meetLink : String
  needsResponse : Bool
deriving DecidableEq, Repr

structure Email where
  id : String
  threadId : String
  from_ : String
  fromName : String
  to_ : String
  subject : String
  body : String
  date : DateTime
deriving DecidableEq, Repr

structure Investor where
  name : String
  email : String
  company : String
  meetingStatus : String
  meetingDate : String
  meetingTime : String
  lastContact : String
  with_ : String
  calendarLink : String
  meetLink : String
  needsResponse : String
  notes : String
deriving DecidableEq, Repr

/-- The record every field of which is empty: the row `addInvestor` starts
from (`new Array(totalColumns).fill('')`). -/
def Investor.blank : Investor :=
  ⟨"", "", "", "", "", "", "", "", "", "", "", ""⟩

/-- The read view of a stored row produced by `getInvestors`: every field
verbatim except `email`, which is lower-cased on read. -/
def Investor.view (r : Investor) : Investor := { r with email := lowerStr r.email }

/-- The store: the data rows of the sheet in order.  `getInvestors`
assigns `rowIndex = position + 2` (1-indexed plus header row); we index
rows by list position, an offset-preserving renaming. -/
abbrev Store := List Investor

/-! ### Schema discovery (`sheets.js`, `discoverColumns`) -/

/-- The canonical field names of `COLUMN_ALIASES`, in declaration order. -/
inductive FieldName where
  | name | email | company | location | about
  | meetingStatus | meetingDate | meetingTime | lastContact | notes
  | with_ | calendarLink | meetLink | needsResponse
deriving DecidableEq, Repr

/-- The alias table `COLUMN_ALIASES` of `sheets.js`, verbatim. -/
def COLUMN_ALIASES : FieldName → List String
  | .name => ["name", "investor name", "investor", "contact name", "contact"]
  | .email => ["email", "email address", "e-mail"]
  | .company => ["company", "fund", "firm", "organization", "org"]
  | .location => ["location", "city", "hq", "headquarters", "based in"]
  | .about => ["about", "bio", "description", "background"]
  | .meetingStatus => ["meeting status", "status", "stage", "meeting stage"]
  | .meetingDate => ["meeting date", "date", "next meeting", "scheduled date", "meeting"]
  | .meetingTime => ["meeting time", "time", "start time", "meeting start"]
  | .lastContact => ["last contact", "last contacted", "last email", "last touch"]
  | .notes => ["notes", "note", "comments", "summary", "context"]
  | .with_ => ["with", "meeting with", "attendee", "attendees"]
  | .calendarLink => ["calendar link", "calendar", "cal link", "event link", "gcal", "google calendar"]
  | .meetLink => ["meet link", "meeting link", "video link", "zoom", "google meet", "meet"]
  | .needsResponse => ["needs response", "awaiting response", "pending response", "response needed"]

/-- `Object.entries(COLUMN_ALIASES)` iteration order: declaration order. -/
def fieldOrder : List FieldName :=
  [.name, .email, .company, .location, .about, .meetingStatus, .meetingDate,
   .meetingTime, .lastContact, .notes, .with_, .calendarLink, .meetLink, .needsResponse]

/-- The inner alias test of `discoverColumns`:
`aliases.some(alias => headerLower.includes(alias) || alias.includes(headerLower))`
with `headerLower = header.toLowerCase().trim()`. -/
def matchesAliases (header : String) (f : FieldName) : Bool :=
  let headerLower := jsTrim (lowerStr header)
  (COLUMN_ALIASES f).any (fun al =>
    strIncludes headerLower al || strIncludes al headerLower)

/-- The inner `for ... break` of `discoverColumns`: the first field in
declaration order whose alias set matches this header cell, if any. -/
def claimField (header : String) : Option FieldName :=
  fieldOrder.find? (matchesAliases header)

/-- JS object assignment `columnMap[fieldName] = index` on an association
list: replace the binding if present, append it otherwise. -/
def upsert (m : List (FieldName × Nat)) (f : FieldName) (i : Nat) : List (FieldName × Nat) :=
  match m with
  | [] => [(f, i)]
  | (g, j) :: rest => if g = f then (f, i) :: rest else (g, j) :: upsert rest f i

/-- The outer `headers.forEach` of `discoverColumns`, threading the map. -/
def discoverAux (m : List (FieldName × Nat)) (i : Nat) : List String → List (FieldName × Nat)
  | [] => m
  | h :: hs =>
    match claimField h with
    | some f => discoverAux (upsert m f i) (i + 1) hs
    | none => discoverAux m (i + 1) hs

/-- `discoverColumns` of `sheets.js`: builds `columnMap` from the header
row (the `_headers` / `_headerIndices` bookkeeping fields are not part of
the field map and are omitted). -/
def discoverColumns (headers : List String) : List (FieldName × Nat) :=
  discoverAux [] 0 headers

/-- Lookup in the discovered map; `none` plays the role of the `-1` of
`getColumnIndex`. -/
def getColumnIndex (m : List (FieldName × Nat)) (f : FieldName) : Option Nat :=
  (m.find? (fun p => p.1 = f)).map Prod.snd

/-! ### Dedup resolver and store operations (`sheets.js`) -/

/-- `Array.prototype.find` refined to also return the position of the hit,
which is the row the subsequent `updateInvestor` call targets (the source
carries it as `rowIndex` on the investor object). -/
def findIdxAndVal (p : Investor → Bool) : Store → Option (Nat × Investor)
  | [] => none
  | r :: rest =>
    if p r then some (0, r)
    else (findIdxAndVal p rest).map (fun x => (x.1 + 1, x.2))

/-- The email-equality stage of `findInvestorByEmail`:
`inv.email === emailLower` on the read view (stored email lower-cased). -/
def emailEqP (emailLower : String) (r : Investor) : Bool :=
  lowerStr r.email = emailLower

/-- The local-part fallback stage of `findInvestorByEmail`: with
`emailPrefix` the candidate's local part with `.`/`_`/`-` replaced by
spaces, a row matches when its non-empty lower-cased trimmed name contains
`emailPrefix`, or `emailPrefix` contains the first space-separated token
of that name. -/
def localPartP (emailLower : String) (r : Investor) : Bool :=
  if r.name = "" then false
  else
    let invNameLower := jsTrim (lowerStr r.name)
    let pseudo := replaceSeps (beforeFirst emailLower '@')
    strIncludes invNameLower pseudo || strIncludes pseudo (beforeFirst invNameLower ' ')

/-- `findInvestorByEmail` of `sheets.js` under the standard schema (email
and name columns bound): the email-equality stage, then the local-part
fallback, each scanning the store top to bottom.  Returns the row position
and the read view of the row. -/
def findInvestorByEmail (s : Store) (email : String) : Option (Nat × Investor) :=
  let emailLower := lowerStr email
  match findIdxAndVal (emailEqP emailLower) s with
  | some (j, r) => some (j, r.view)
  | none => (findIdxAndVal (localPartP emailLower) s).map (fun x => (x.1, x.2.view))

/-- The exact stage of `findInvestorByName`:
`inv.name && inv.name.toLowerCase().trim() === nameLower`. -/
def nameExactP (nameLower : String) (r : Investor) : Bool :=
  r.name ≠ "" && jsTrim (lowerStr r.name) = nameLower

/-- The partial stage of `findInvestorByName`: every whitespace token of
the candidate name occurs inside the row's lower-cased name. -/
def namePartsP (parts : List String) (r : Investor) : Bool :=
  if r.name = "" then false
  else parts.all (fun part => strIncludes (lowerStr r.name) part)

/-- `findInvestorByName` of `sheets.js`: exact lower-trimmed equality
first, then the all-tokens partial match, attempted only when the
candidate name has at least two whitespace tokens. -/
def findInvestorByName (s : Store) (name : String) : Option (Nat × Investor) :=
  if name = "" then none
  else
    let nameLower := jsTrim (lowerStr name)
    match findIdxAndVal (nameExactP nameLower) s with
    | some (j, r) => some (j, r.view)
    | none =>
      let nameParts := jsSplitWs nameLower
      if nameParts.length ≥ 2 then
        (findIdxAndVal (namePartsP nameParts) s).map (fun x => (x.1, x.2.view))
      else none

/-- `addInvestor` under the standard schema: append the new row.  (The
sheet adapter fills unbound/falsy cells with `''`, which is the default of
every `Investor` field.) -/
def addInvestor (s : Store) (r : Investor) : Store := s ++ [r]

/-- `updateInvestor` under the standard schema: rewrite the targeted row
by the update function (which sets exactly the fields present in the
`updates` object). -/
def updateInvestor (s : Store) (j : Nat) (f : Investor → Investor) : Store :=
  match s.get? j with
  | some r => s.set j (f r)
  | none => s

/-- Note text produced by `appendNotes` of `sheets.js`: a
`[timestamp]`-prefixed entry appended after the existing notes with a
blank line. -/
def appendNotesText (today newNote existingNotes : String) : String :=
  let formattedNote := "[" ++ today ++ "] " ++ newNote
  if existingNotes = "" then formattedNote
  else existingNotes ++ "\n\n" ++ formattedNote

/-! ### Calendar selectors (`calendar.js`) -/

/-- JS `eventStart < now` on `new Date(...)` values. -/
def CalEvent.isPast (now : Int) (e : CalEvent) : Bool := e.start.ts < now

/-- Stable insertion of an event into an ascending-by-start list; models
one step of the stable `Array.prototype.sort` with comparator
`(a, b) => new Date(a.start) - new Date(b.start)`. -/
def insertByStartAsc (e : CalEvent) : List CalEvent → List CalEvent
  | [] => [e]
  | x :: xs => if e.start.ts < x.start.ts then e :: x :: xs else x :: insertByStartAsc e xs

/-- Stable ascending sort by start time. -/
def sortByStartAsc : List CalEvent → List CalEvent
  | [] => []
  | x :: xs => insertByStartAsc x (sortByStartAsc xs)

/-- Stable insertion for the descending comparator
`(a, b) => new Date(b.start) - new Date(a.start)`. -/
def insertByStartDesc (e : CalEvent) : List CalEvent → List CalEvent
  | [] => [e]
  | x :: xs => if x.start.ts < e.start.ts then e :: x :: xs else x :: insertByStartDesc e xs

/-- Stable descending sort by start time. -/
def sortByStartDesc : List CalEvent → List CalEvent
  | [] => []
  | x :: xs => insertByStartDesc x (sortByStartDesc xs)

/-- `getNextMeetingWithAttendee` of `calendar.js`, applied to the window
of events the transport returned for the attendee (`findMeetingsWithAttendee`
already filtered to events listing the address as attendee): keep
non-past, non-cancelled events, sort ascending by start, return the
soonest. -/
def getNextMeetingWithAttendee (now : Int) (meetings : List CalEvent) : Option CalEvent :=
  let upcoming := meetings.filter (fun m => !(m.isPast now) && m.status ≠ "cancelled")
  (sortByStartAsc upcoming).head?

/-- `getLastMeetingWithAttendee` of `calendar.js`: keep past,
non-cancelled events, sort descending by start, return the most recent. -/
def getLastMeetingWithAttendee (now : Int) (meetings : List CalEvent) : Option CalEvent :=
  let past := meetings.filter (fun m => m.isPast now && m.status ≠ "cancelled")
  (sortByStartDesc past).head?

/-! ### Date formatting (`sheets.js`) -/

/-- Digit-by-digit rendering of a natural number, as `toString` of the JS
template literal. -/
def natToStr (n : Nat) : String := String.mk (Nat.toDigits 10 n)

/-- Month names of `formatMeetingDate`. -/
def monthName (m : Nat) : String :=
  (["Jan", "Feb", "Mar", "Apr", "May", "Jun", "Jul", "Aug", "Sep", "Oct",
    "Nov", "Dec"].get? (m - 1)).getD ""

/-- Parse the `YYYY-MM-DD` strings that reach `formatMeetingDate`
(classifier dates and `start.split('T')[0]` values): the three dash
fields as numbers. -/
def parseYmd (s : String) : Option (Nat × Nat × Nat) :=
  match (s.data.splitOn '-').map (fun l => String.mk l) with
  | [y, m, d] =>
    if y.data.all Char.isDigit && m.data.all Char.isDigit && d.data.all Char.isDigit
        && y ≠ "" && m ≠ "" && d ≠ "" then
      some (y.toNat!, m.toNat!, d.toNat!)
    else none
  | _ => none

/-- `formatMeetingDate` of `sheets.js`: renders a parseable `YYYY-MM-DD`
date as `"11 Jan 2025"`; non-parseable input is returned unchanged
(the JS `catch`/`Invalid Date` path, which no claim exercises). -/
def formatMeetingDate (dateStr : String) : String :=
  if dateStr = "" then ""
  else
    match parseYmd dateStr with
    | some (y, m, d) => natToStr d ++ " " ++ monthName m ++ " " ++ natToStr y
    | none => dateStr

/-- `formatMeetingTime` of `sheets.js` over the structured date-time:
`"2:30 PM"` with 12-hour wrap-around and zero-padded minutes. -/
def formatMeetingTime (dt : DateTime) : String :=
  let ampm := if dt.hour ≥ 12 then "PM" else "AM"
  let hours := if dt.hour % 12 = 0 then 12 else dt.hour % 12
  let minutesStr := if dt.minute < 10 then "0" ++ natToStr dt.minute else natToStr dt.minute
  natToStr hours ++ ":" ++ minutesStr ++ " " ++ ampm

/-! ### Field merge and status derivation

The decision engine of the sync service (`processEmail` in `sync.js`) and
of the backfill script (`processContact`).  The classifier signal, the
calendar window and the clock are inputs: `processEmail` is then a pure
transformer of the store. -/

/-- Result of processing one unit. -/
inductive SyncAction where
  | skipped (reason : String)
  | updated (investor : String)
  | added (investor : String)
deriving DecidableEq, Repr

/-- The meeting fields derived by steps 3-5 before the write-set is
assembled: seeds from the classifier, then the calendar override. -/
structure Derived where
  meetingStatus : String
  meetingDate : String
  meetingTime : String
  calendarLink : String
  meetLink : String
  needsResponse : Bool
deriving DecidableEq, Repr

/-- The calendar-override block of `processEmail` (sync service): an
upcoming meeting unconditionally forces `Scheduled` and sources every
meeting field from it; otherwise a past meeting yields `Completed` only
when the classifier status is empty (`!meetingStatus`). -/
def deriveMeetingSync (a : Analysis) (next? last? : Option CalEvent) : Derived :=
  match next? with
  | some nm =>
    ⟨"Scheduled", nm.start.date, formatMeetingTime nm.start,
      nm.calendarLink, nm.meetLink, nm.needsResponse⟩
  | none =>
    match last? with
    | some lm =>
      if a.meetingStatus = "" then
        ⟨"Completed", lm.start.date, formatMeetingTime lm.start,
          lm.calendarLink, lm.meetLink, false⟩
      else ⟨a.meetingStatus, a.meetingDate, "", "", "", false⟩
    | none => ⟨a.meetingStatus, a.meetingDate, "", "", "", false⟩

/-- The calendar-override block of `processContact` (backfill): identical
except that the past-meeting branch also fires when the classifier status
is the `"New Contact"` sentinel. -/
def deriveMeetingBackfill (a : Analysis) (next? last? : Option CalEvent) : Derived :=
  match next? with
  | some nm =>
    ⟨"Scheduled", nm.start.date, formatMeetingTime nm.start,
      nm.calendarLink, nm.meetLink, nm.needsResponse⟩
  | none =>
    match last? with
    | some lm =>
      if a.meetingStatus = "" ∨ a.meetingStatus = "New Contact" then
        ⟨"Completed", lm.start.date, formatMeetingTime lm.start,
          lm.calendarLink, lm.meetLink, false⟩
      else ⟨a.meetingStatus, a.meetingDate, "", "", "", false⟩
    | none => ⟨a.meetingStatus, a.meetingDate, "", "", "", false⟩

/-- `determineWith` of the sync service: attribution from one email's
`to`/`from` headers. -/
def determineWith (e : Email) : String :=
  let toL := lowerStr e.to_
  let fromL := lowerStr e.from_
  let hasAvi := strIncludes toL "avi@" || strIncludes fromL "avi@"
  let hasYuval := strIncludes toL "yuval@" || strIncludes fromL "yuval@"
  if hasAvi && hasYuval then "Both"
  else if hasAvi then "Avi"
  else if hasYuval then "Yuval"
  else "Both"

/-- `determineWith` of the backfill script: the same test folded over the
whole email bucket. -/
def determineWithAll (emails : List Email) : String :=
  let hasAvi := emails.any (fun e =>
    strIncludes (lowerStr e.to_) "avi@" || strIncludes (lowerStr e.from_) "avi@")
  let hasYuval := emails.any (fun e =>
    strIncludes (lowerStr e.to_) "yuval@" || strIncludes (lowerStr e.from_) "yuval@")
  if hasAvi && hasYuval then "Both"
  else if hasAvi then "Avi"
  else if hasYuval then "Yuval"
  else "Both"

/-- Inputs to one `processEmail` call that are produced by collaborators:
the message, the classifier signal (`none` models a parse failure), the
calendar window per (lower-cased) attendee address, the clock instant and
the ISO date `today`.  Attendee lookups in `findMeetingsWithAttendee`
compare addresses lower-cased, so the window is a function of the
lower-cased address. -/
structure SyncInput where
  email : Email
  analysis : Option Analysis
  calendar : String → List CalEvent
  now : Int
  today : String

/-- The write-set applied to an existing row by the update branch of
`processEmail` (the `existingInvestor` path): `r` is the read view the
branch consulted, `rr` the raw row being rewritten. -/
def applyUpdateSync (a : Analysis) (d : Derived) (fmtDate meetingWith : String)
    (today : String) (r rr : Investor) : Investor :=
  { rr with
    lastContact := today
    meetingStatus :=
      if d.meetingStatus ≠ "" ∧ d.meetingStatus ≠ r.meetingStatus then d.meetingStatus
      else rr.meetingStatus
    meetingDate := if fmtDate ≠ "" then fmtDate else rr.meetingDate
    meetingTime := if d.meetingTime ≠ "" then d.meetingTime else rr.meetingTime
    with_ := meetingWith
    calendarLink := if d.calendarLink ≠ "" then d.calendarLink else rr.calendarLink
    meetLink := if d.meetLink ≠ "" then d.meetLink else rr.meetLink
    needsResponse := if d.needsResponse then "Yes" else "No"
    company := if a.company ≠ "" ∧ r.company = "" then a.company else rr.company }

/-- The write-set applied by the found-by-name branch of `processEmail`:
like the update branch but with the email backstop
(`existingByName.email || email.from`), an unguarded status write, and no
company write. -/
def applyUpdateByName (d : Derived) (fmtDate meetingWith : String)
    (today fromAddr : String) (r rr : Investor) : Investor :=
  { rr with
    lastContact := today
    email := if r.email ≠ "" then r.email else fromAddr
    meetingStatus := if d.meetingStatus ≠ "" then d.meetingStatus else rr.meetingStatus
    meetingDate := if fmtDate ≠ "" then fmtDate else rr.meetingDate
    meetingTime := if d.meetingTime ≠ "" then d.meetingTime else rr.meetingTime
    calendarLink := if d.calendarLink ≠ "" then d.calendarLink else rr.calendarLink
    meetLink := if d.meetLink ≠ "" then d.meetLink else rr.meetLink
    with_ := meetingWith
    needsResponse := if d.needsResponse then "Yes" else "No" }

/-- The in-place notes concatenation both non-create branches of
`processEmail` perform when the classifier produced a note:
`existingNotes ? existingNotes + '\n' + noteSummary : noteSummary`,
where `existingNotes` is read from the record found at resolution time. -/
def concatNotes (existingNotes noteSummary : String) : String :=
  if existingNotes = "" then noteSummary
  else existingNotes ++ "\n" ++ noteSummary

/-- The record assembled by the create branch of `processEmail`. -/
def newInvestorSync (a : Analysis) (d : Derived)
    (investorName fromAddr fmtDate meetingWith today : String) : Investor :=
  { Investor.blank with
    name := investorName
    email := fromAddr
    company := a.company
    meetingStatus := if d.meetingStatus = "" then "Follow-up" else d.meetingStatus
    meetingDate := fmtDate
    meetingTime := d.meetingTime
    lastContact := today
    with_ := meetingWith
    calendarLink := d.calendarLink
    meetLink := d.meetLink
    needsResponse := if d.needsResponse then "Yes" else "No"
    notes := if a.noteSummary = "" then "- Initial contact via email" else a.noteSummary }

/-- `processEmail` of the sync service (`sync.js`), as a pure store
transformer.  Returns the resulting store and the reported action. -/
def processEmail (inp : SyncInput) (s : Store) : Store × SyncAction :=
  let existing? := findInvestorByEmail s inp.email.from_
  match inp.analysis with
  | none => (s, .skipped "analysis_failed")
  | some a =>
    if !a.isRelevant then (s, .skipped "not_relevant")
    else if !a.isVCInvestor then (s, .skipped "not_vc_investor")
    else
      let contactEmail := match existing? with
        | some x => x.2.email
        | none => inp.email.from_
      let window := inp.calendar (lowerStr contactEmail)
      let next? := getNextMeetingWithAttendee inp.now window
      let last? := getLastMeetingWithAttendee inp.now window
      let d := deriveMeetingSync a next? last?
      let meetingWith := determineWith inp.email
      let fmtDate := if d.meetingDate = "" then "" else formatMeetingDate d.meetingDate
      match existing? with
      | some (j, r) =>
        let s1 := updateInvestor s j (applyUpdateSync a d fmtDate meetingWith inp.today r)
        let s2 :=
          if a.noteSummary = "" then s1
          else updateInvestor s1 j (fun rr => { rr with notes := concatNotes r.notes a.noteSummary })
        (s2, .updated r.name)
      | none =>
        let investorName := if a.investorName = "" then inp.email.fromName else a.investorName
        match findInvestorByName s investorName with
        | some (j, r) =>
          let s1 := updateInvestor s j
            (applyUpdateByName d fmtDate meetingWith inp.today inp.email.from_ r)
          let s2 :=
            if a.noteSummary = "" then s1
            else updateInvestor s1 j (fun rr => { rr with notes := concatNotes r.notes a.noteSummary })
          (s2, .updated r.name)
        | none =>
          (addInvestor s
            (newInvestorSync a d investorName inp.email.from_ fmtDate meetingWith inp.today),
           .added investorName)

/-- Inputs to one `processContact` call of the backfill script: the
counterpart address, its email bucket, the classifier signal for the
latest email, the thread summary (`""` models `null`), the calendar
window and the clock. -/
structure BackfillInput where
  contactEmail : String
  emails : List Email
  analysis : Option Analysis
  threadSummary : String
  calendar : String → List CalEvent
  now : Int
  today : String

/-- Stable ascending sort of emails by date
(`emails.sort((a, b) => new Date(a.date) - new Date(b.date))`). -/
def insertByDateAsc (e : Email) : List Email → List Email
  | [] => [e]
  | x :: xs => if e.date.ts < x.date.ts then e :: x :: xs else x :: insertByDateAsc e xs

/-- Stable ascending sort of an email bucket by date. -/
def sortEmailsByDate : List Email → List Email
  | [] => []
  | x :: xs => insertByDateAsc x (sortEmailsByDate xs)

/-- The write-set applied to an existing row by the update branch of
`processContact` (status written unguarded when non-empty; company only
into an empty cell). -/
def applyUpdateBackfill (a : Analysis) (d : Derived) (fmtDate meetingWith : String)
    (lastContact : String) (r rr : Investor) : Investor :=
  { rr with
    lastContact := lastContact
    with_ := meetingWith
    meetingStatus := if d.meetingStatus ≠ "" then d.meetingStatus else rr.meetingStatus
    meetingDate := if fmtDate ≠ "" then fmtDate else rr.meetingDate
    meetingTime := if d.meetingTime ≠ "" then d.meetingTime else rr.meetingTime
    calendarLink := if d.calendarLink ≠ "" then d.calendarLink else rr.calendarLink
    meetLink := if d.meetLink ≠ "" then d.meetLink else rr.meetLink
    company := if a.company ≠ "" ∧ r.company = "" then a.company else rr.company
    needsResponse := if d.needsResponse then "Yes" else "No" }

/-- The record assembled by the create branch of `processContact`. -/
def newInvestorBackfill (a : Analysis) (d : Derived)
    (investorName contactEmail fmtDate meetingWith lastContact notes : String) : Investor :=
  { Investor.blank with
    name := investorName
    email := contactEmail
    company := a.company
    meetingStatus := if d.meetingStatus = "" then "Follow-up" else d.meetingStatus
    meetingDate := fmtDate
    meetingTime := d.meetingTime
    lastContact := lastContact
    with_ := meetingWith
    calendarLink := d.calendarLink
    meetLink := d.meetLink
    needsResponse := if d.needsResponse then "Yes" else "No"
    notes := notes }

/-- `processContact` of the backfill script, as a pure store transformer.
The empty-bucket branch is unreachable from `groupEmailsByContact`, which
only creates a bucket when it pushes a first message into it. -/
def processContact (inp : BackfillInput) (s : Store) : Store × SyncAction :=
  let existing? := findInvestorByEmail s inp.contactEmail
  let window := inp.calendar (lowerStr inp.contactEmail)
  let next? := getNextMeetingWithAttendee inp.now window
  let last? := getLastMeetingWithAttendee inp.now window
  let sorted := sortEmailsByDate inp.emails
  match sorted.getLast? with
  | none => (s, .skipped "empty_contact_group")
  | some latestEmail =>
    match inp.analysis with
    | none => (s, .skipped "not_relevant")
    | some a =>
      if !a.isRelevant then (s, .skipped "not_relevant")
      else if !a.isVCInvestor then (s, .skipped "not_vc_investor")
      else
        let d := deriveMeetingBackfill a next? last?
        let notes :=
          if inp.emails.length > 1 ∧ inp.threadSummary ≠ "" then inp.threadSummary
          else a.noteSummary
        let lastContact := latestEmail.date.date
        let meetingWith := determineWithAll inp.emails
        let fmtDate := if d.meetingDate = "" then "" else formatMeetingDate d.meetingDate
        match existing? with
        | some (j, r) =>
          let s1 := updateInvestor s j (applyUpdateBackfill a d fmtDate meetingWith lastContact r)
          let s2 :=
            if notes = "" then s1
            else updateInvestor s1 j
              (fun rr => { rr with notes := appendNotesText inp.today notes r.notes })
          (s2, .updated r.name)
        | none =>
          let investorName := if a.investorName = "" then latestEmail.fromName else a.investorName
          (addInvestor s
            (newInvestorBackfill a d investorName inp.contactEmail fmtDate meetingWith
              lastContact notes),
           .added investorName)

/-! ### Counterpart grouping (`gmail.js`) -/

/-- Character class `[^>,\s]` of the recipient-header regex. -/
def allowedAddrChar (c : Char) : Bool := !(c = '>' || c = ',' || isWs c)

/-- Scanner realising the first match of `/<?([^>,\s]+@[^>,\s]+)>?/` and
its capture group: `run` is the reversed maximal allowed-character run
ending just before the current position.  At the first `@` that has an
allowed character on both sides, the group is the backward run (minus a
single leading `<`, which the `<?` of the pattern consumes when the run
has anything after it), the `@`, and the forward allowed run. -/
def scanAddr (run : List Char) (l : List Char) : Option String :=
  match l with
  | [] => none
  | c :: rest =>
    if c = '@' && !run.isEmpty && (match rest with | r :: _ => allowedAddrChar r | [] => false) then
      let back := run.reverse
      let back2 := match back with
        | '<' :: b :: bs => b :: bs
        | _ => back
      let fwd := rest.takeWhile allowedAddrChar
      some (String.mk (back2 ++ '@' :: fwd))
    else if allowedAddrChar c then scanAddr (c :: run) rest
    else scanAddr [] rest

/-- `to.match(/<?([^>,\s]+@[^>,\s]+)>?/)?.[1]`: the first address-shaped
chunk of a recipient header. -/
def firstAddr (s : String) : Option String := scanAddr [] s.data

/-- Insertion into the `Map` of `groupEmailsByContact`: push onto an
existing bucket, or append a new key in first-seen order. -/
def pushContact (acc : List (String × List Email)) (c : String) (e : Email) :
    List (String × List Email) :=
  match acc with
  | [] => [(c, [e])]
  | (k, v) :: rest =>
    if k = c then (k, v ++ [e]) :: rest else (k, v) :: pushContact rest c e

/-- The per-message counterpart resolution of `groupEmailsByContact`
(multi-account version): a message sent by a monitored account is keyed
by the first address parsed out of its recipient header (lower-cased);
any other message is keyed by its sender. -/
def resolveContact (monitoredSet : List String) (e : Email) : Option String :=
  if monitoredSet.contains e.from_ then (firstAddr e.to_).map lowerStr
  else some e.from_

/-- `groupEmailsByContact` of `gmail.js` (multi-account version): bucket
messages by resolved counterpart, dropping messages whose counterpart is
missing or is itself a monitored address. -/
def groupEmailsByContact (emails : List Email) (monitoredEmails : List String) :
    List (String × List Email) :=
  let monitoredSet := monitoredEmails.map lowerStr
  emails.foldl
    (fun acc e =>
      match resolveContact monitoredSet e with
      | none => acc
      | some c => if monitoredSet.contains c then acc else pushContact acc c e)
    []

/-! ### Cursor-based ingestion (`gmail.js`, multi-account version)

The transport responses for one account are collected in `AcctEnv`:
the outcome of `users.getProfile` (the server's current history id), the
outcome of the bootstrap `messages.list` over the 24-hour lookback
window (already resolved to parsed messages), and the outcome of
`users.history.list` from a given stored cursor.  A `404` from the
history call is the cursor-invalidated condition. -/

inductive DeltaOutcome where
  | ok (msgs : List Email)
  | gone
  | fail (err : String)
deriving DecidableEq, Repr

structure AcctEnv where
  profile : Except String String
  bootstrapList : Except String (List Email)
  delta : String → DeltaOutcome

/-- The first-run path of `fetchNewEmailsForUser`: list the lookback
window, then store the server position as the cursor.  The cursor is left
absent when the list call itself throws (the `set` comes after it). -/
def bootstrapFetch (env : AcctEnv) (current : String) :
    Except String (List Email) × Option String :=
  match env.bootstrapList with
  | .error e => (.error e, none)
  | .ok msgs => (.ok msgs, some current)

/-- `fetchNewEmailsForUser` of `gmail.js` for one account, from the stored
cursor state.  On a `404` the code deletes the cursor and re-enters
itself, which deterministically takes the first-run path; that recursion
is inlined here as a second `bootstrapFetch` call.  Returns the fetch
outcome and the new stored-cursor state. -/
def fetchNewEmailsForUser (env : AcctEnv) (cur? : Option String) :
    Except String (List Email) × Option String :=
  match env.profile with
  | .error e => (.error e, cur?)
  | .ok current =>
    match cur? with
    | none => bootstrapFetch env current
    | some c =>
      match env.delta c with
      | .ok msgs => (.ok msgs, some current)
      | .gone => bootstrapFetch env current
      | .fail e => (.error e, some c)

/-- `fetchNewEmails` of `gmail.js`: poll every monitored account in
order; a per-account failure is caught and logged, and the loop
continues.  The cursor map is threaded through as a function. -/
def fetchNewEmails (accts : List String) (envs : String → AcctEnv)
    (st : String → Option String) : List Email × (String → Option String) :=
  match accts with
  | [] => ([], st)
  | a :: rest =>
    let r := fetchNewEmailsForUser (envs a) (st a)
    let st1 : String → Option String := fun x => if x = a then r.2 else st x
    let tail := fetchNewEmails rest envs st1
    match r.1 with
    | .ok ms => (ms ++ tail.1, tail.2)
    | .error _ => (tail.1, tail.2)

/-! ### Classifier output parsing (`claude.js`) -/

/-- `content.match(/\{[\s\S]*\}/)`: the slice from the first `{` to the
last `}`, when such a (non-degenerate) slice exists. -/
def extractJsonBlock (content : String) : Option String :=
  let fromBrace := content.data.dropWhile (fun c => c ≠ '{')
  if fromBrace.isEmpty then none
  else
    let toBrace := (fromBrace.reverse.dropWhile (fun c => c ≠ '}')).reverse
    if toBrace.isEmpty then none else some (String.mk toBrace)

/-- The response-handling tail of `analyzeEmail` in `claude.js`:
`jsonParse` stands for the platform primitive `JSON.parse` plus field
extraction, returning `none` exactly when `JSON.parse` throws.  Both the
no-JSON-found case and the parse-failure case yield `null`. -/
def analyzeEmailParse (content : String) (jsonParse : String → Option Analysis) :
    Option Analysis :=
  match extractJsonBlock content with
  | none => none
  | some block => jsonParse block

/-! ### The sync cycle loop (`runSyncCycle`) -/

structure CycleResults where
  processed : Nat
  added : Nat
  updated : Nat
  skipped : Nat
deriving DecidableEq, Repr

/-- The per-email loop of `runSyncCycle`: every email is processed, its
action tallied; the batch-final sort-and-recolor presentation pass (which
only permutes rows and recolors them) is modelled separately as a store
permutation where a claim needs it. -/
def runSyncCycleLoop (inputs : List SyncInput) (s : Store) : Store × CycleResults :=
  match inputs with
  | [] => (s, ⟨0, 0, 0, 0⟩)
  | i :: rest =>
    let r := processEmail i s
    let tail := runSyncCycleLoop rest r.1
    let t := tail.2
    match r.2 with
    | .added _ => (tail.1, ⟨t.processed + 1, t.added + 1, t.updated, t.skipped⟩)
    | .updated _ => (tail.1, ⟨t.processed + 1, t.added, t.updated + 1, t.skipped⟩)
    | .skipped _ => (tail.1, ⟨t.processed + 1, t.added, t.updated, t.skipped + 1⟩)

/-! ### Supporting lemmas -/

theorem charToLower_idem (c : Char) : c.toLower.toLower = c.toLower := by
  unfold Char.toLower
  simp only []
  by_cases h : c.toNat ≥ 65 ∧ c.toNat ≤ 90
  · rw [if_pos h]
    have hv : (c.toNat + 32).isValidChar := by
      left
      omega
    have ht : (Char.ofNat (c.toNat + 32)).toNat = c.toNat + 32 := by
      unfold Char.ofNat
      rw [dif_pos hv]
      rfl
    rw [if_neg]
    rw [ht]
    omega
  · rw [if_neg h, if_neg h]

theorem lowerStr_idem (s : String) : lowerStr (lowerStr s) = lowerStr s := by
  unfold lowerStr
  congr 1
  show List.map Char.toLower (List.map Char.toLower s.data) = List.map Char.toLower s.data
  rw [List.map_map]
  exact List.map_congr_left (fun c _ => charToLower_idem c)

theorem lowerStr_eq_empty_iff (s : String) : lowerStr s = "" ↔ s = "" := by
  rcases s with ⟨l⟩
  unfold lowerStr
  constructor
  · intro h
    have hd : List.map Char.toLower l = [] := congrArg String.data h
    have hl : l = [] := by simpa using hd
    rw [hl]
  · intro h
    have hl : l = [] := congrArg String.data h
    rw [hl]
    rfl

theorem view_email (r : Investor) : r.view.email = lowerStr r.email := rfl

theorem view_name (r : Investor) : r.view.name = r.name := rfl

theorem view_company (r : Investor) : r.view.company = r.company := rfl

theorem view_meetingStatus (r : Investor) : r.view.meetingStatus = r.meetingStatus := rfl

theorem view_notes (r : Investor) : r.view.notes = r.notes := rfl

theorem findIdxAndVal_some {p : Investor → Bool} :
    ∀ {s : Store} {j : Nat} {r : Investor},
      findIdxAndVal p s = some (j, r) → s.get? j = some r ∧ p r = true := by
  intro s
  induction s with
  | nil => intro j r h; simp [findIdxAndVal] at h
  | cons x t ih =>
    intro j r h
    by_cases hx : p x
    · rw [findIdxAndVal, if_pos hx] at h
      injection h with h
      injection h with h1 h2
      subst h1; subst h2
      exact ⟨rfl, hx⟩
    · rw [findIdxAndVal, if_neg hx, Option.map_eq_some'] at h
      rcases h with ⟨⟨j', r'⟩, hf, he⟩
      injection he with he1 he2
      subst he1; subst he2
      have := ih hf
      simpa using this

theorem findIdxAndVal_none_iff {p : Investor → Bool} :
    ∀ {s : Store}, findIdxAndVal p s = none ↔ ∀ r ∈ s, p r = false := by
  intro s
  induction s with
  | nil => simp [findIdxAndVal]
  | cons x t ih =>
    by_cases hx : p x
    · rw [findIdxAndVal, if_pos hx]
      simp only [List.mem_cons]
      constructor
      · intro h; exact absurd h (by simp)
      · intro h
        exact absurd (h x (Or.inl rfl)) (by simp [hx])
    · rw [findIdxAndVal, if_neg hx, Option.map_eq_none']
      rw [ih]
      constructor
      · intro h r hr
        rcases List.mem_cons.mp hr with h1 | h2
        · subst h1; exact eq_false_of_ne_true hx
        · exact h r h2
      · intro h r hr
        exact h r (List.mem_cons_of_mem x hr)

theorem findIdxAndVal_earlier {p : Investor → Bool} :
    ∀ {s : Store} {j : Nat} {r : Investor}, findIdxAndVal p s = some (j, r) →
      ∀ k, k < j → ∀ x, s.get? k = some x → p x = false := by
  intro s
  induction s with
  | nil => intro j r h; simp [findIdxAndVal] at h
  | cons y t ih =>
    intro j r h k hk x hget
    by_cases hy : p y
    · rw [findIdxAndVal, if_pos hy] at h
      injection h with h
      injection h with h1 _
      omega
    · rw [findIdxAndVal, if_neg hy, Option.map_eq_some'] at h
      rcases h with ⟨⟨j', r'⟩, hf, he⟩
      injection he with he1 he2
      subst he1; subst he2
      cases k with
      | zero =>
        rw [List.get?_cons_zero] at hget
        injection hget with hget
        subst hget
        exact eq_false_of_ne_true hy
      | succ k' =>
        rw [List.get?_cons_succ] at hget
        exact ih hf k' (by omega) x hget

theorem findIdxAndVal_set_hit {p : Investor → Bool} :
    ∀ {s : Store} {j : Nat} {r r' : Investor},
      findIdxAndVal p s = some (j, r) → p r' = true →
      findIdxAndVal p (s.set j r') = some (j, r') := by
  intro s
  induction s with
  | nil => intro j r r' h; simp [findIdxAndVal] at h
  | cons y t ih =>
    intro j r r' h hr'
    by_cases hy : p y
    · rw [findIdxAndVal, if_pos hy] at h
      injection h with h
      injection h with h1 _
      subst h1
      rw [List.set]
      rw [findIdxAndVal, if_pos hr']
    · rw [findIdxAndVal, if_neg hy, Option.map_eq_some'] at h
      rcases h with ⟨⟨j', r₀⟩, hf, he⟩
      injection he with he1 he2
      subst he1; subst he2
      rw [List.set]
      rw [findIdxAndVal, if_neg hy, ih hf hr']
      rfl

theorem findIdxAndVal_set_none {p : Investor → Bool} :
    ∀ {s : Store} {j : Nat} {r' : Investor},
      findIdxAndVal p s = none → p r' = false →
      findIdxAndVal p (s.set j r') = none := by
  intro s
  induction s with
  | nil => intro j r' _ _; rfl
  | cons y t ih =>
    intro j r' h hr'
    by_cases hy : p y
    · rw [findIdxAndVal, if_pos hy] at h
      simp at h
    · rw [findIdxAndVal, if_neg hy, Option.map_eq_none'] at h
      cases j with
      | zero =>
        rw [List.set]
        rw [findIdxAndVal, if_neg (by simp [hr'])]
        rw [h]
        rfl
      | succ j' =>
        rw [List.set]
        rw [findIdxAndVal, if_neg hy, ih h hr']
        rfl

theorem findIdxAndVal_set_hit_of_none {p : Investor → Bool} :
    ∀ {s : Store} {j : Nat} {r r' : Investor},
      findIdxAndVal p s = none → s.get? j = some r → p r' = true →
      findIdxAndVal p (s.set j r') = some (j, r') := by
  intro s
  induction s with
  | nil => intro j r r' _ hget; simp at hget
  | cons y t ih =>
    intro j r r' h hget hr'
    by_cases hy : p y
    · rw [findIdxAndVal, if_pos hy] at h
      simp at h
    · rw [findIdxAndVal, if_neg hy, Option.map_eq_none'] at h
      cases j with
      | zero =>
        rw [List.set]
        rw [findIdxAndVal, if_pos hr']
      | succ j' =>
        rw [List.get?_cons_succ] at hget
        rw [List.set]
        rw [findIdxAndVal, if_neg hy, ih h hget hr']
        rfl

theorem findIdxAndVal_append {p : Investor → Bool} :
    ∀ {s : Store} {x : Investor}, findIdxAndVal p s = none →
      findIdxAndVal p (s ++ [x]) =
        if p x then some (s.length, x) else none := by
  intro s
  induction s with
  | nil =>
    intro x _
    by_cases hx : p x
    · simp [findIdxAndVal, hx]
    · simp [findIdxAndVal, hx]
  | cons y t ih =>
    intro x h
    by_cases hy : p y
    · rw [findIdxAndVal, if_pos hy] at h
      simp at h
    · rw [findIdxAndVal, if_neg hy, Option.map_eq_none'] at h
      rw [List.cons_append]
      rw [findIdxAndVal, if_neg hy, ih h]
      by_cases hx : p x
      · simp [hx]
      · simp [hx]

theorem updateInvestor_eq_set {s : Store} {j : Nat} {r : Investor}
    (f : Investor → Investor) (h : s.get? j = some r) :
    updateInvestor s j f = s.set j (f r) := by
  unfold updateInvestor
  rw [h]

/-- A skip result from `processEmail` leaves the store untouched: all
three skip returns occur before any store call. -/
theorem processEmail_skipped_store_eq (inp : SyncInput) (s : Store) (reason : String)
    (h : (processEmail inp s).2 = .skipped reason) : (processEmail inp s).1 = s := by
  cases hA : inp.analysis with
  | none => simp [processEmail, hA]
  | some a =>
    cases hR : a.isRelevant with
    | false => simp [processEmail, hA, hR]
    | true =>
      cases hV : a.isVCInvestor with
      | false => simp [processEmail, hA, hR, hV]
      | true =>
        cases hF : findInvestorByEmail s inp.email.from_ with
        | some x =>
          obtain ⟨j, rv⟩ := x
          simp [processEmail, hA, hR, hV, hF] at h
        | none =>
          cases hN : findInvestorByName s
              (if a.investorName = "" then inp.email.fromName else a.investorName) with
          | some x =>
            obtain ⟨j, rv⟩ := x
            simp [processEmail, hA, hR, hV, hF, hN] at h
          | none =>
            simp [processEmail, hA, hR, hV, hF, hN] at h

/-- A skip result from `processContact` leaves the store untouched. -/
theorem processContact_skipped_store_eq (inp : BackfillInput) (s : Store) (reason : String)
    (h : (processContact inp s).2 = .skipped reason) : (processContact inp s).1 = s := by
  cases hL : (sortEmailsByDate inp.emails).getLast? with
  | none => simp [processContact, hL]
  | some latest =>
    cases hA : inp.analysis with
    | none => simp [processContact, hL, hA]
    | some a =>
      cases hR : a.isRelevant with
      | false => simp [processContact, hL, hA, hR]
      | true =>
        cases hV : a.isVCInvestor with
        | false => simp [processContact, hL, hA, hR, hV]
        | true =>
          cases hF : findInvestorByEmail s inp.contactEmail with
          | some x =>
            obtain ⟨j, rv⟩ := x
            simp [processContact, hL, hA, hR, hV, hF] at h
          | none =>
            simp [processContact, hL, hA, hR, hV, hF] at h

/-- Per-account independence of the polling loop: with distinct accounts,
each account's messages and new cursor depend only on its own environment
and stored cursor, and accounts outside the list are untouched. -/
theorem fetchNewEmails_spec (accts : List String) (envs : String → AcctEnv)
    (st : String → Option String) (hnd : accts.Nodup) :
    (∀ a ∈ accts,
        (fetchNewEmails accts envs st).2 a = (fetchNewEmailsForUser (envs a) (st a)).2) ∧
    (∀ a, a ∉ accts → (fetchNewEmails accts envs st).2 a = st a) ∧
    (fetchNewEmails accts envs st).1 =
      (accts.map (fun a =>
        match (fetchNewEmailsForUser (envs a) (st a)).1 with
        | .ok ms => ms
        | .error _ => [])).flatten := by
  induction accts generalizing st with
  | nil => exact ⟨by intro a ha; simp at ha, by intro a _; rfl, by simp [fetchNewEmails]⟩
  | cons a rest ih =>
    have hna : a ∉ rest := (List.nodup_cons.mp hnd).1
    have hnr : rest.Nodup := (List.nodup_cons.mp hnd).2
    set r := fetchNewEmailsForUser (envs a) (st a) with hr
    set st1 : String → Option String := fun x => if x = a then r.2 else st x with hst1
    have hmain : fetchNewEmails (a :: rest) envs st =
        (match r.1 with
         | .ok ms => (ms ++ (fetchNewEmails rest envs st1).1, (fetchNewEmails rest envs st1).2)
         | .error _ => ((fetchNewEmails rest envs st1).1, (fetchNewEmails rest envs st1).2)) := by
      rw [fetchNewEmails]
    obtain ⟨ih1, ih2, ih3⟩ := ih st1 hnr
    have hstate : (fetchNewEmails (a :: rest) envs st).2 = (fetchNewEmails rest envs st1).2 := by
      rw [hmain]
      cases r.1 with
      | ok ms => rfl
      | error e => rfl
    have hmsgs : (fetchNewEmails (a :: rest) envs st).1 =
        (match r.1 with
         | .ok ms => ms
         | .error _ => []) ++ (fetchNewEmails rest envs st1).1 := by
      rw [hmain]
      cases r.1 with
      | ok ms => rfl
      | error e => rfl
    refine ⟨?_, ?_, ?_⟩
    · intro b hb
      rcases List.mem_cons.mp hb with hba | hbr
      · subst hba
        rw [hstate, ih2 b hna]
        simp [hst1]
      · have hbne : b ≠ a := fun he => hna (he ▸ hbr)
        rw [hstate, ih1 b hbr]
        simp [hst1, hbne]
    · intro b hb
      have hbne : b ≠ a := fun he => hb (he ▸ List.mem_cons_self a rest)
      have hbr : b ∉ rest := fun hr' => hb (List.mem_cons_of_mem a hr')
      rw [hstate, ih2 b hbr]
      simp [hst1, hbne]
    · rw [hmsgs, ih3]
      have hcong : rest.map (fun b =>
          match (fetchNewEmailsForUser (envs b) (st1 b)).1 with
          | .ok ms => ms
          | .error _ => []) = rest.map (fun b =>
          match (fetchNewEmailsForUser (envs b) (st b)).1 with
          | .ok ms => ms
          | .error _ => []) := by
        refine List.map_congr_left ?_
        intro b hbr
        have hbne : b ≠ a := fun he => hna (he ▸ hbr)
        simp [hst1, hbne]
      rw [hcong]
      simp

end ZCRM

namespace ZCRM

/-! ### Claim theorems -/

/-- Fixture message for witnesses. -/
def wEmail : Email :=
  ⟨"m1", "t1", "alice@fund.com", "Alice Smith", "avi@zealotlabs.com", "Intro", "Hello",
    ⟨"2025-01-05", 9, 30, 100⟩⟩

/-- Fixture sync input whose classifier output failed to parse. -/
def wInputNoAnalysis : SyncInput :=
  ⟨wEmail, none, fun _ => [], 0, "2025-01-06"⟩

/-- Fixture backfill input whose classifier output failed to parse. -/
def wBackfillNoAnalysis : BackfillInput :=
  ⟨"alice@fund.com", [wEmail], none, "", fun _ => [], 0, "2025-01-06"⟩

/-- Fixture polling environment: delta from cursor "h1" reports the
cursor-invalidated condition, any other cursor a transport failure; the
bootstrap window holds one message; the server position is "h2". -/
def wEnv : AcctEnv :=
  ⟨.ok "h2", .ok [wEmail], fun c => if c = "h1" then .gone else .fail "net"⟩

/-- Claim C10: whenever processing of one unit results in a Skip (analysis
failed, not relevant, or not a target-category investor), `processEmail`
and `processContact` return before any store-mutating call, so the store
after the unit equals the store before it. -/
theorem C10_skip_store_atomic :
    (∀ (inp : SyncInput) (s : Store) (reason : String),
        (processEmail inp s).2 = .skipped reason → (processEmail inp s).1 = s) ∧
    (∀ (inp : BackfillInput) (s : Store) (reason : String),
        (processContact inp s).2 = .skipped reason → (processContact inp s).1 = s) :=
  ⟨processEmail_skipped_store_eq, processContact_skipped_store_eq⟩

/-- Witness for C10 at a concrete skipped unit. -/
theorem C10_witness :
    (processEmail wInputNoAnalysis [Investor.blank]).1 = [Investor.blank] ∧
    (processContact wBackfillNoAnalysis [Investor.blank]).1 = [Investor.blank] :=
  ⟨C10_skip_store_atomic.1 wInputNoAnalysis [Investor.blank] "analysis_failed" (by decide),
   C10_skip_store_atomic.2 wBackfillNoAnalysis [Investor.blank] "not_relevant" (by decide)⟩

/-- Claim C8: classifier output with no JSON block, or whose JSON fails to
parse, yields a null signal from `analyzeEmail`; `processEmail` then skips
the unit with reason `analysis_failed` and the cycle loop counts it
skipped and carries on with the remaining units from an unchanged store. -/
theorem C8_parse_failure_skip :
    (∀ (content : String) (jsonParse : String → Option Analysis),
        extractJsonBlock content = none → analyzeEmailParse content jsonParse = none) ∧
    (∀ (content : String) (jsonParse : String → Option Analysis) (block : String),
        extractJsonBlock content = some block → jsonParse block = none →
        analyzeEmailParse content jsonParse = none) ∧
    (∀ (inp : SyncInput) (s : Store), inp.analysis = none →
        processEmail inp s = (s, .skipped "analysis_failed")) ∧
    (∀ (i : SyncInput) (rest : List SyncInput) (s : Store), i.analysis = none →
        runSyncCycleLoop (i :: rest) s =
          ((runSyncCycleLoop rest s).1,
            ⟨(runSyncCycleLoop rest s).2.processed + 1, (runSyncCycleLoop rest s).2.added,
              (runSyncCycleLoop rest s).2.updated, (runSyncCycleLoop rest s).2.skipped + 1⟩)) := by
  refine ⟨?_, ?_, ?_, ?_⟩
  · intro content P h
    simp [analyzeEmailParse, h]
  · intro content P block h hp
    simp [analyzeEmailParse, h, hp]
  · intro inp s h
    simp [processEmail, h]
  · intro i rest s h
    have hi : processEmail i s = (s, .skipped "analysis_failed") := by
      simp [processEmail, h]
    rw [runSyncCycleLoop, hi]

/-- Witness for C8 at a concrete unparseable classifier response. -/
theorem C8_witness :
    analyzeEmailParse "no json here" (fun _ => some ⟨"", "", "", "", "", true, true⟩) = none ∧
    analyzeEmailParse "pre { bad } post" (fun _ => none) = none ∧
    processEmail wInputNoAnalysis [] = ([], .skipped "analysis_failed") ∧
    runSyncCycleLoop [wInputNoAnalysis] [] = ([], ⟨1, 0, 0, 1⟩) := by
  refine ⟨?_, ?_, ?_, ?_⟩
  · exact C8_parse_failure_skip.1 "no json here" (fun _ => some ⟨"", "", "", "", "", true, true⟩)
      (by decide)
  · exact C8_parse_failure_skip.2.1 "pre { bad } post" (fun _ => none) "{ bad }" (by decide) rfl
  · exact C8_parse_failure_skip.2.2.1 wInputNoAnalysis [] rfl
  · have h := C8_parse_failure_skip.2.2.2 wInputNoAnalysis [] [] rfl
    simpa [runSyncCycleLoop] using h

/-- Claim C7: with no stored cursor the poll takes the bootstrap path and
stores the server position as the new cursor (whatever the window held);
a cursor-invalidated delta clears the cursor and re-enters the bootstrap
path once, surfacing no error of its own; any other delta failure
propagates with the cursor left where it was; and polling isolates
accounts: each account's cursor and messages depend only on its own
environment, and one account's failure leaves the others polled. -/
theorem C7_cursor_recovery :
    (∀ (env : AcctEnv) (current : String) (msgs : List Email),
        env.profile = .ok current → env.bootstrapList = .ok msgs →
        fetchNewEmailsForUser env none = (.ok msgs, some current)) ∧
    (∀ (env : AcctEnv) (current c : String),
        env.profile = .ok current → env.delta c = .gone →
        fetchNewEmailsForUser env (some c) = fetchNewEmailsForUser env none) ∧
    (∀ (env : AcctEnv) (current c e : String),
        env.profile = .ok current → env.delta c = .fail e →
        fetchNewEmailsForUser env (some c) = (.error e, some c)) ∧
    (∀ (accts : List String) (envs : String → AcctEnv) (st : String → Option String),
        accts.Nodup →
        (∀ a ∈ accts,
            (fetchNewEmails accts envs st).2 a = (fetchNewEmailsForUser (envs a) (st a)).2) ∧
        (∀ a, a ∉ accts → (fetchNewEmails accts envs st).2 a = st a) ∧
        (fetchNewEmails accts envs st).1 =
          (accts.map (fun a =>
            match (fetchNewEmailsForUser (envs a) (st a)).1 with
            | .ok ms => ms
            | .error _ => [])).flatten) := by
  refine ⟨?_, ?_, ?_, fetchNewEmails_spec⟩
  · intro env current msgs hp hb
    simp [fetchNewEmailsForUser, hp, bootstrapFetch, hb]
  · intro env current c hp hd
    simp [fetchNewEmailsForUser, hp, hd]
  · intro env current c e hp hd
    simp [fetchNewEmailsForUser, hp, hd]

/-- Witness for C7 at a concrete environment. -/
theorem C7_witness :
    fetchNewEmailsForUser wEnv none = (.ok [wEmail], some "h2") ∧
    fetchNewEmailsForUser wEnv (some "h1") = fetchNewEmailsForUser wEnv none ∧
    fetchNewEmailsForUser wEnv (some "h9") = (.error "net", some "h9") ∧
    (fetchNewEmails ["acct1"] (fun _ => wEnv) (fun _ => none)).2 "acct1" =
      (fetchNewEmailsForUser wEnv none).2 := by
  refine ⟨?_, ?_, ?_, ?_⟩
  · exact C7_cursor_recovery.1 wEnv "h2" [wEmail] rfl rfl
  · exact C7_cursor_recovery.2.1 wEnv "h2" "h1" rfl (by decide)
  · exact C7_cursor_recovery.2.2.1 wEnv "h2" "h9" "net" rfl (by decide)
  · exact ((C7_cursor_recovery.2.2.2 ["acct1"] (fun _ => wEnv) (fun _ => none)
      (by simp)).1 "acct1" (by simp))

/-! ### Claim C4: schema discovery -/

/-- Discovery as the specification describes it (for comparison with the
source): fields are visited in priority order; each field binds to the
first header cell matching its alias set that no earlier field claimed;
a bound field and a claimed cell are never reconsidered. -/
def specDiscover (headers : List String) : List (FieldName × Nat) :=
  fieldOrder.foldl
    (fun acc f =>
      match headers.enum.find?
          (fun p => matchesAliases p.2 f && !(acc.any (fun q => q.2 == p.1))) with
      | some p => acc ++ [(f, p.1)]
      | none => acc)
    []

/-- The binding the source actually produces for a field: the last header
cell (in header order, offsets starting at `i`) whose first-matching
field in priority order is that field. -/
def lastClaimFrom (i : Nat) (hs : List String) (f : FieldName) : Option Nat :=
  match hs with
  | [] => none
  | h :: t =>
    match lastClaimFrom (i + 1) t f with
    | some k => some k
    | none => if claimField h = some f then some i else none

theorem getColumnIndex_cons_eq (g : FieldName) (pi : Nat) (t : List (FieldName × Nat)) :
    getColumnIndex ((g, pi) :: t) g = some pi := by
  simp [getColumnIndex]

theorem getColumnIndex_cons_ne (pf g : FieldName) (pi : Nat) (t : List (FieldName × Nat))
    (h : pf ≠ g) : getColumnIndex ((pf, pi) :: t) g = getColumnIndex t g := by
  simp [getColumnIndex, List.find?, h]

theorem getColumnIndex_upsert (m : List (FieldName × Nat)) (f g : FieldName) (i : Nat) :
    getColumnIndex (upsert m f i) g = if g = f then some i else getColumnIndex m g := by
  induction m with
  | nil =>
    by_cases hgf : g = f
    · subst hgf
      simp [upsert, getColumnIndex]
    · simp [upsert, getColumnIndex, Ne.symm hgf, hgf]
  | cons p t ih =>
    obtain ⟨pf, pi⟩ := p
    by_cases hpf : pf = f
    · subst hpf
      rw [upsert, if_pos rfl]
      by_cases hgf : g = pf
      · subst hgf
        rw [getColumnIndex_cons_eq, getColumnIndex_cons_eq, if_pos rfl]
      · rw [getColumnIndex_cons_ne pf g i t (Ne.symm hgf),
          getColumnIndex_cons_ne pf g pi t (Ne.symm hgf), if_neg hgf]
    · rw [upsert, if_neg hpf]
      by_cases hgp : g = pf
      · subst hgp
        have hgf : ¬g = f := fun h => hpf h
        rw [getColumnIndex_cons_eq, getColumnIndex_cons_eq, if_neg hgf]
      · rw [getColumnIndex_cons_ne pf g pi (upsert t f i) (Ne.symm hgp),
          getColumnIndex_cons_ne pf g pi t (Ne.symm hgp), ih]

theorem discoverAux_lookup (hs : List String) :
    ∀ (m : List (FieldName × Nat)) (i : Nat) (f : FieldName),
      getColumnIndex (discoverAux m i hs) f =
        match lastClaimFrom i hs f with
        | some k => some k
        | none => getColumnIndex m f := by
  induction hs with
  | nil => intro m i f; rfl
  | cons h t ih =>
    intro m i f
    simp only [discoverAux, lastClaimFrom]
    cases hc : claimField h with
    | none =>
      rw [ih]
      cases lastClaimFrom (i + 1) t f with
      | some k => rfl
      | none => simp [hc]
    | some g =>
      rw [ih]
      cases lastClaimFrom (i + 1) t f with
      | some k => rfl
      | none =>
        rw [getColumnIndex_upsert]
        dsimp only
        by_cases hfg : f = g
        · subst hfg
          simp
        · rw [if_neg hfg, if_neg (by simp [Ne.symm hfg])]

end ZCRM

namespace ZCRM

/-- Claim C4 counterexample: on the header row `["Name", "Contact"]` both
cells match the `name` alias set; the claim binds `name` to the first
cell (index 0), but `discoverColumns` overwrites the binding and ends at
index 1. -/
theorem C4_counterexample :
    getColumnIndex (discoverColumns ["Name", "Contact"]) FieldName.name = some 1 ∧
    getColumnIndex (specDiscover ["Name", "Contact"]) FieldName.name = some 0 ∧
    getColumnIndex (discoverColumns ["Name", "Contact"]) FieldName.name ≠
      getColumnIndex (specDiscover ["Name", "Contact"]) FieldName.name := by
  refine ⟨by decide, by decide, by decide⟩

/-- Claim C4 amended: `discoverColumns` visits header cells in order and
gives each cell to the first field in priority order whose alias set it
matches (`claimField`), overwriting any earlier binding of that field;
hence each canonical field ends bound to the last header cell that claims
it, deterministically in the header row and alias-priority order. -/
theorem C4_amended_schema_discovery (headers : List String) (f : FieldName) :
    getColumnIndex (discoverColumns headers) f = lastClaimFrom 0 headers f := by
  rw [discoverColumns, discoverAux_lookup]
  cases lastClaimFrom 0 headers f with
  | some k => rfl
  | none => rfl

/-! ### Claim C5: dedup resolver ordering -/

/-- The resolver composition the code actually runs per counterpart:
`processEmail` consults `findInvestorByEmail(email.from)` first and only
when that returns nothing falls back, in the create path, to
`findInvestorByName(investorName)`. -/
def resolveCounterpart (s : Store) (candEmail candName : String) : Option (Nat × Investor) :=
  match findInvestorByEmail s candEmail with
  | some x => some x
  | none => findInvestorByName s candName

/-- The resolver as the specification describes it (for comparison with
the source): exact email equality, then the name-token rule (candidate
display name with at least two whitespace tokens, every token a substring
of the record's normalized name), then the symmetric local-part
heuristic. -/
def specResolve (s : Store) (candEmail candName : String) : Option (Nat × Investor) :=
  let emailLower := lowerStr candEmail
  match findIdxAndVal (emailEqP emailLower) s with
  | some (j, r) => some (j, r.view)
  | none =>
    let toks := jsSplitWs (lowerStr candName)
    match (if toks.length ≥ 2 then
        findIdxAndVal (fun r => toks.all (fun t => strIncludes (lowerStr r.name) t)) s
      else none) with
    | some (j, r) => some (j, r.view)
    | none =>
      let pseudo := replaceSeps (beforeFirst emailLower '@')
      (findIdxAndVal (fun r =>
          strIncludes (lowerStr r.name) pseudo || strIncludes pseudo (lowerStr r.name)) s).map
        (fun x => (x.1, x.2.view))

/-- The staged description of what the source does, in the order it does
it: (1) exact lower-cased email equality; (2) the local-part heuristic,
which matches when the record's normalized name contains the candidate's
de-separated local part, or that local part contains the first
space-token of the record's name; (3) exact normalized-name equality
against the classifier-resolved display name; (4) the all-tokens name
match, attempted only when that display name has at least two tokens. -/
def specResolveStaged (s : Store) (candEmail candName : String) : Option (Nat × Investor) :=
  let emailLower := lowerStr candEmail
  match findIdxAndVal (emailEqP emailLower) s with
  | some (j, r) => some (j, r.view)
  | none =>
    match findIdxAndVal (localPartP emailLower) s with
    | some (j, r) => some (j, r.view)
    | none =>
      if candName = "" then none
      else
        let nameLower := jsTrim (lowerStr candName)
        match findIdxAndVal (nameExactP nameLower) s with
        | some (j, r) => some (j, r.view)
        | none =>
          let nameParts := jsSplitWs nameLower
          if nameParts.length ≥ 2 then
            (findIdxAndVal (namePartsP nameParts) s).map (fun x => (x.1, x.2.view))
          else none

end ZCRM

namespace ZCRM

/-- Fixture store for the C5 counterexample. -/
def wStoreC5 : Store :=
  [{ Investor.blank with name := "Jane Doe Smith" },
   { Investor.blank with name := "Bob Jones Sr" }]

/-- Claim C5 counterexample: for candidate email `jane.doe@x.com` with
display name `Bob Jones`, the claimed ordering resolves to the record
named `Bob Jones Sr` via the name-token rule, but the code's
`findInvestorByEmail` local-part heuristic fires first and resolves to
`Jane Doe Smith`. -/
theorem C5_counterexample :
    resolveCounterpart wStoreC5 "jane.doe@x.com" "Bob Jones" =
      some (0, { Investor.blank with name := "Jane Doe Smith" }) ∧
    specResolve wStoreC5 "jane.doe@x.com" "Bob Jones" =
      some (1, { Investor.blank with name := "Bob Jones Sr" }) ∧
    resolveCounterpart wStoreC5 "jane.doe@x.com" "Bob Jones" ≠
      specResolve wStoreC5 "jane.doe@x.com" "Bob Jones" := by
  refine ⟨by decide, by decide, by decide⟩

/-- Claim C5 amended: the resolver tries, in this order with first
success winning and scanning records in store order: (1) exact lower-case
email equality; (2) the asymmetric local-part heuristic of
`findInvestorByEmail`; (3) exact normalized-name equality; (4) the
name-token match, only when the display name has two or more whitespace
tokens; if none match the counterpart is new. -/
theorem C5_amended_resolver_order (s : Store) (candEmail candName : String) :
    resolveCounterpart s candEmail candName = specResolveStaged s candEmail candName := by
  unfold resolveCounterpart specResolveStaged findInvestorByEmail findInvestorByName
  dsimp only
  cases h1 : findIdxAndVal (emailEqP (lowerStr candEmail)) s with
  | some x => obtain ⟨j, r⟩ := x; rfl
  | none =>
    cases h2 : findIdxAndVal (localPartP (lowerStr candEmail)) s with
    | some x => obtain ⟨j, r⟩ := x; rfl
    | none => rfl

/-! ### Claim C6: counterpart grouping -/

/-- Bucket lookup in the grouping result (the `Map.get` view). -/
def bucketOf (g : List (String × List Email)) (c : String) : List Email :=
  ((g.find? (fun p => p.1 == c)).map Prod.snd).getD []

/-- All address-shaped chunks of a recipient header, in order (the
specification speaks of the addresses "parsed from the recipient
header"). -/
def addressesOf (s : String) : List String :=
  (s.data.splitOn ',').filterMap (fun chunk => firstAddr (String.mk chunk))

/-- The counterpart rule as the claim states it: for a message sent by a
monitored account, the first external (non-monitored) address of the
recipient header. -/
def specFirstExternal (monSet : List String) (s : String) : Option String :=
  ((addressesOf s).map lowerStr).find? (fun a => !monSet.contains a)

/-- The claim-side counterpart of a message. -/
def specCounterpart (monSet : List String) (e : Email) : Option String :=
  if monSet.contains e.from_ then specFirstExternal monSet e.to_ else some e.from_

theorem bucketOf_cons_same (k : String) (v : List Email) (t : List (String × List Email)) :
    bucketOf ((k, v) :: t) k = v := by
  simp [bucketOf]

theorem bucketOf_cons_ne (k c : String) (v : List Email) (t : List (String × List Email))
    (h : k ≠ c) : bucketOf ((k, v) :: t) c = bucketOf t c := by
  simp [bucketOf, h]

theorem bucketOf_pushContact_same (acc : List (String × List Email)) (c : String) (e : Email) :
    bucketOf (pushContact acc c e) c = bucketOf acc c ++ [e] := by
  induction acc with
  | nil => simp [pushContact, bucketOf]
  | cons p t ih =>
    obtain ⟨k, v⟩ := p
    by_cases hk : k = c
    · subst hk
      simp only [pushContact, if_pos rfl, if_true]
      rw [bucketOf_cons_same, bucketOf_cons_same]
    · simp only [pushContact, if_neg hk]
      rw [bucketOf_cons_ne k c v t hk, bucketOf_cons_ne k c v (pushContact t c e) hk]
      exact ih

theorem bucketOf_pushContact_other (acc : List (String × List Email)) (c c' : String)
    (e : Email) (h : c' ≠ c) : bucketOf (pushContact acc c' e) c = bucketOf acc c := by
  induction acc with
  | nil => simp [pushContact, bucketOf, h]
  | cons p t ih =>
    obtain ⟨k, v⟩ := p
    by_cases hk : k = c'
    · subst hk
      simp only [pushContact, if_pos rfl, if_true]
      rw [bucketOf_cons_ne k c (v ++ [e]) t (h ∘ Eq.symm ∘ Eq.symm),
        bucketOf_cons_ne k c v t (h ∘ Eq.symm ∘ Eq.symm)]
    · simp only [pushContact, if_neg hk]
      by_cases hkc : k = c
      · subst hkc
        rw [bucketOf_cons_same, bucketOf_cons_same]
      · rw [bucketOf_cons_ne k c v t hkc, bucketOf_cons_ne k c v (pushContact t c' e) hkc]
        exact ih

theorem groupEmailsByContact_fold (monSet : List String) (c : String) :
    ∀ (emails : List Email) (acc : List (String × List Email)),
      bucketOf (emails.foldl
        (fun acc e =>
          match resolveContact monSet e with
          | none => acc
          | some c' => if monSet.contains c' then acc else pushContact acc c' e)
        acc) c =
      bucketOf acc c ++
        (if monSet.contains c then []
         else emails.filter (fun e => resolveContact monSet e == some c)) := by
  intro emails
  induction emails with
  | nil =>
    intro acc
    by_cases hm : monSet.contains c
    · rw [if_pos hm]
      simp
    · rw [if_neg hm]
      simp
  | cons e t ih =>
    intro acc
    rw [List.foldl_cons]
    cases hr : resolveContact monSet e with
    | none =>
      dsimp only
      rw [ih acc]
      congr 1
      by_cases hm : monSet.contains c
      · rw [if_pos hm, if_pos hm]
      · rw [if_neg hm, if_neg hm, List.filter_cons]
        have hne : (resolveContact monSet e == some c) = false := by rw [hr]; rfl
        simp only [hne]
        rfl
    | some c' =>
      dsimp only
      by_cases hmc' : monSet.contains c'
      · rw [if_pos hmc', ih acc]
        congr 1
        by_cases hm : monSet.contains c
        · rw [if_pos hm, if_pos hm]
        · rw [if_neg hm, if_neg hm, List.filter_cons]
          have hne : (resolveContact monSet e == some c) = false := by
            rw [hr]
            by_cases hcc : c' = c
            · exact absurd (hcc ▸ hmc') hm
            · simp [hcc]
          simp only [hne]
          rfl
      · rw [if_neg hmc', ih (pushContact acc c' e)]
        by_cases hm : monSet.contains c
        · have hcc : c' ≠ c := fun hq => hmc' (by rw [hq]; exact hm)
          rw [bucketOf_pushContact_other acc c c' e hcc, if_pos hm, if_pos hm]
        · by_cases hcc : c' = c
          · subst hcc
            rw [bucketOf_pushContact_same acc c' e, if_neg hm, if_neg hm, List.filter_cons]
            have hp : (resolveContact monSet e == some c') = true := by rw [hr]; simp
            simp only [hp]
            rw [List.append_assoc]
            rfl
          · rw [bucketOf_pushContact_other acc c c' e hcc, if_neg hm, if_neg hm,
              List.filter_cons]
            have hne : (resolveContact monSet e == some c) = false := by
              rw [hr]; simp [hcc]
            simp only [hne]
            rfl

end ZCRM

namespace ZCRM

/-- Fixture message for the C6 counterexample: sent by the monitored
account `a@m.com` to the monitored account `b@m.com` with the external
address `c@x.com` in second position. -/
def wEmailC6 : Email :=
  ⟨"m2", "t2", "a@m.com", "A", "b@m.com, c@x.com", "s", "b", ⟨"2025-01-01", 0, 0, 0⟩⟩

/-- Claim C6 counterexample: the claim keys the message under the first
external recipient `c@x.com`; `groupEmailsByContact` instead parses only
the first address of the header (`b@m.com`), finds it monitored, and
drops the message entirely. -/
theorem C6_counterexample :
    specCounterpart ["a@m.com", "b@m.com"] wEmailC6 = some "c@x.com" ∧
    (["a@m.com", "b@m.com"] : List String).contains "c@x.com" = false ∧
    groupEmailsByContact [wEmailC6] ["a@m.com", "b@m.com"] = [] := by
  refine ⟨by decide, by decide, by decide⟩

/-- Claim C6 amended: the counterpart of a monitored sender's message is
the first address parsed from the recipient header, external or not
(`resolveContact`); a message whose counterpart is missing or monitored
is dropped; and each counterpart's bucket is exactly the subsequence of
input messages resolving to it, in input order. -/
theorem C6_amended_grouping (emails : List Email) (monitoredEmails : List String) (c : String) :
    bucketOf (groupEmailsByContact emails monitoredEmails) c =
      (if (monitoredEmails.map lowerStr).contains c then []
       else emails.filter
         (fun e => resolveContact (monitoredEmails.map lowerStr) e == some c)) := by
  rw [groupEmailsByContact]
  rw [groupEmailsByContact_fold (monitoredEmails.map lowerStr) c emails []]
  rw [show bucketOf [] c = [] from rfl]
  rw [List.nil_append]

/-! ### Claim C1: status precedence -/

theorem insertByStartAsc_perm (e : CalEvent) (l : List CalEvent) :
    (insertByStartAsc e l).Perm (e :: l) := by
  induction l with
  | nil => rfl
  | cons x xs ih =>
    rw [insertByStartAsc]
    by_cases h : e.start.ts < x.start.ts
    · rw [if_pos h]
    · rw [if_neg h]
      exact (List.Perm.cons x ih).trans (List.Perm.swap e x xs)

theorem sortByStartAsc_perm (l : List CalEvent) : (sortByStartAsc l).Perm l := by
  induction l with
  | nil => rfl
  | cons x xs ih =>
    rw [sortByStartAsc]
    exact (insertByStartAsc_perm x (sortByStartAsc xs)).trans (List.Perm.cons x ih)

theorem insertByStartDesc_perm (e : CalEvent) (l : List CalEvent) :
    (insertByStartDesc e l).Perm (e :: l) := by
  induction l with
  | nil => rfl
  | cons x xs ih =>
    rw [insertByStartDesc]
    by_cases h : x.start.ts < e.start.ts
    · rw [if_pos h]
    · rw [if_neg h]
      exact (List.Perm.cons x ih).trans (List.Perm.swap e x xs)

theorem sortByStartDesc_perm (l : List CalEvent) : (sortByStartDesc l).Perm l := by
  induction l with
  | nil => rfl
  | cons x xs ih =>
    rw [sortByStartDesc]
    exact (insertByStartDesc_perm x (sortByStartDesc xs)).trans (List.Perm.cons x ih)

/-- The meeting returned by `getNextMeetingWithAttendee` really is an
upcoming, non-cancelled element of the window. -/
theorem getNextMeeting_mem (now : Int) (evs : List CalEvent) (nm : CalEvent)
    (h : getNextMeetingWithAttendee now evs = some nm) :
    nm ∈ evs ∧ nm.isPast now = false ∧ nm.status ≠ "cancelled" := by
  rw [getNextMeetingWithAttendee] at h
  have hmem : nm ∈ sortByStartAsc (evs.filter (fun m => !(m.isPast now) && m.status ≠ "cancelled")) := by
    cases hs : sortByStartAsc (evs.filter (fun m => !(m.isPast now) && m.status ≠ "cancelled")) with
    | nil => rw [hs] at h; simp at h
    | cons x xs =>
      rw [hs] at h
      injection h with h
      subst h
      exact List.mem_cons_self _ _
  have hf := (sortByStartAsc_perm _).mem_iff.mp hmem
  have := List.mem_filter.mp hf
  refine ⟨this.1, ?_, ?_⟩
  · have hb := this.2
    simp at hb
    exact hb.1
  · have hb := this.2
    simp at hb
    exact hb.2

/-- The meeting returned by `getLastMeetingWithAttendee` really is a
past, non-cancelled element of the window. -/
theorem getLastMeeting_mem (now : Int) (evs : List CalEvent) (lm : CalEvent)
    (h : getLastMeetingWithAttendee now evs = some lm) :
    lm ∈ evs ∧ lm.isPast now = true ∧ lm.status ≠ "cancelled" := by
  rw [getLastMeetingWithAttendee] at h
  have hmem : lm ∈ sortByStartDesc (evs.filter (fun m => m.isPast now && m.status ≠ "cancelled")) := by
    cases hs : sortByStartDesc (evs.filter (fun m => m.isPast now && m.status ≠ "cancelled")) with
    | nil => rw [hs] at h; simp at h
    | cons x xs =>
      rw [hs] at h
      injection h with h
      subst h
      exact List.mem_cons_self _ _
  have hf := (sortByStartDesc_perm _).mem_iff.mp hmem
  have := List.mem_filter.mp hf
  refine ⟨this.1, ?_, ?_⟩
  · have hb := this.2
    simp at hb
    exact hb.1
  · have hb := this.2
    simp at hb
    exact hb.2

/-- An upcoming, non-cancelled event in the window guarantees the
selector finds one. -/
theorem getNextMeeting_isSome (now : Int) (evs : List CalEvent) (e : CalEvent)
    (he : e ∈ evs) (hp : e.isPast now = false) (hc : e.status ≠ "cancelled") :
    (getNextMeetingWithAttendee now evs).isSome := by
  rw [getNextMeetingWithAttendee]
  have hf : e ∈ evs.filter (fun m => !(m.isPast now) && m.status ≠ "cancelled") := by
    refine List.mem_filter.mpr ⟨he, ?_⟩
    simp [hp, hc]
  have hne : evs.filter (fun m => !(m.isPast now) && m.status ≠ "cancelled") ≠ [] :=
    List.ne_nil_of_mem hf
  have hlen := (sortByStartAsc_perm
    (evs.filter (fun m => !(m.isPast now) && m.status ≠ "cancelled"))).length_eq
  cases hs : sortByStartAsc (evs.filter (fun m => !(m.isPast now) && m.status ≠ "cancelled")) with
  | nil =>
    rw [hs] at hlen
    exact absurd (List.eq_nil_of_length_eq_zero hlen.symm) hne
  | cons x xs => rfl

end ZCRM

namespace ZCRM

/-- The classifier signal of the C1 counterexample: the sentinel status. -/
def wAnalysisNC : Analysis := ⟨"Jane", "Fund", "New Contact", "", "- note", true, true⟩

/-- A past, non-cancelled meeting (its stamp precedes `now = 0`). -/
def wPastMeeting : CalEvent := ⟨"e1", "Sync", ⟨"2025-01-02", 10, 0, -5⟩, "confirmed", "", "", false⟩

/-- The derived status exactly as claim C1 states it, both branches
including the "New Contact" sentinel special case. -/
def specC1Status (a : Analysis) (next? last? : Option CalEvent) : String :=
  match next? with
  | some _ => "Scheduled"
  | none =>
    match last? with
    | some _ =>
      if a.meetingStatus = "" ∨ a.meetingStatus = "New Contact" then "Completed"
      else a.meetingStatus
    | none => a.meetingStatus

/-- Store and input exhibiting the divergence inside `processEmail`. -/
def wStoreC1 : Store := [{ Investor.blank with name := "Jane", email := "jane@x.com" }]

def wInputC1 : SyncInput :=
  ⟨{ wEmail with from_ := "jane@x.com" }, some wAnalysisNC, fun _ => [wPastMeeting], 0,
    "2025-01-06"⟩

/-- Claim C1 counterexample: with a past non-cancelled meeting, no
upcoming meeting, and classifier status "New Contact", the claim derives
"Completed", but the sync path (`processEmail`, which tests only
`!meetingStatus`) keeps "New Contact" and writes it to the matched
record. -/
theorem C1_counterexample :
    getNextMeetingWithAttendee 0 [wPastMeeting] = none ∧
    getLastMeetingWithAttendee 0 [wPastMeeting] = some wPastMeeting ∧
    wPastMeeting.status ≠ "cancelled" ∧
    specC1Status wAnalysisNC (getNextMeetingWithAttendee 0 [wPastMeeting])
      (getLastMeetingWithAttendee 0 [wPastMeeting]) = "Completed" ∧
    (deriveMeetingSync wAnalysisNC (getNextMeetingWithAttendee 0 [wPastMeeting])
      (getLastMeetingWithAttendee 0 [wPastMeeting])).meetingStatus = "New Contact" ∧
    ((processEmail wInputC1 wStoreC1).1.get? 0).map Investor.meetingStatus =
      some "New Contact" := by
  refine ⟨by decide, by decide, by decide, by decide, by decide, by decide⟩

/-- Claim C1 amended: a non-cancelled future meeting in the window forces
status "Scheduled" with every meeting field taken from it, in both the
sync and the backfill derivation, regardless of the classifier; with only
a past non-cancelled meeting, the backfill derivation moves to
"Completed" (fields from that meeting) exactly when the classifier status
is empty or the "New Contact" sentinel, while the sync derivation does so
exactly when the classifier status is empty — the sentinel special case
exists only in the backfill path. -/
theorem C1_amended_status_precedence (a : Analysis) (now : Int) (evs : List CalEvent) :
    (∀ nm, getNextMeetingWithAttendee now evs = some nm →
        nm.status ≠ "cancelled" ∧ nm.isPast now = false ∧
        deriveMeetingSync a (getNextMeetingWithAttendee now evs)
            (getLastMeetingWithAttendee now evs) =
          ⟨"Scheduled", nm.start.date, formatMeetingTime nm.start,
            nm.calendarLink, nm.meetLink, nm.needsResponse⟩ ∧
        deriveMeetingBackfill a (getNextMeetingWithAttendee now evs)
            (getLastMeetingWithAttendee now evs) =
          ⟨"Scheduled", nm.start.date, formatMeetingTime nm.start,
            nm.calendarLink, nm.meetLink, nm.needsResponse⟩) ∧
    (∀ e ∈ evs, e.isPast now = false → e.status ≠ "cancelled" →
        (getNextMeetingWithAttendee now evs).isSome) ∧
    (∀ lm, getLastMeetingWithAttendee now evs = some lm →
        lm.status ≠ "cancelled" ∧ lm.isPast now = true) ∧
    (∀ lm, getNextMeetingWithAttendee now evs = none →
        getLastMeetingWithAttendee now evs = some lm →
        deriveMeetingBackfill a (getNextMeetingWithAttendee now evs)
            (getLastMeetingWithAttendee now evs) =
          (if a.meetingStatus = "" ∨ a.meetingStatus = "New Contact" then
            ⟨"Completed", lm.start.date, formatMeetingTime lm.start,
              lm.calendarLink, lm.meetLink, false⟩
          else ⟨a.meetingStatus, a.meetingDate, "", "", "", false⟩) ∧
        deriveMeetingSync a (getNextMeetingWithAttendee now evs)
            (getLastMeetingWithAttendee now evs) =
          (if a.meetingStatus = "" then
            ⟨"Completed", lm.start.date, formatMeetingTime lm.start,
              lm.calendarLink, lm.meetLink, false⟩
          else ⟨a.meetingStatus, a.meetingDate, "", "", "", false⟩)) := by
  refine ⟨?_, ?_, ?_, ?_⟩
  · intro nm h
    obtain ⟨_, hp, hc⟩ := getNextMeeting_mem now evs nm h
    refine ⟨hc, hp, ?_, ?_⟩
    · rw [h, deriveMeetingSync]
    · rw [h, deriveMeetingBackfill]
  · intro e he hp hc
    exact getNextMeeting_isSome now evs e he hp hc
  · intro lm h
    obtain ⟨_, hp, hc⟩ := getLastMeeting_mem now evs lm h
    exact ⟨hc, hp⟩
  · intro lm hn hl
    rw [hn, hl]
    exact ⟨rfl, rfl⟩

/-- A future, non-cancelled meeting fixture. -/
def wNextMeeting : CalEvent :=
  ⟨"e2", "Pitch", ⟨"2025-02-01", 14, 30, 50⟩, "confirmed", "", "", true⟩

/-- Witness for C1 at concrete calendar windows. -/
theorem C1_witness :
    (deriveMeetingSync wAnalysisNC (getNextMeetingWithAttendee 0 [wNextMeeting])
        (getLastMeetingWithAttendee 0 [wNextMeeting]) =
      ⟨"Scheduled", "2025-02-01", "2:30 PM", "", "", true⟩) ∧
    (getNextMeetingWithAttendee 0 [wNextMeeting]).isSome ∧
    (deriveMeetingSync wAnalysisNC (getNextMeetingWithAttendee 0 [wPastMeeting])
        (getLastMeetingWithAttendee 0 [wPastMeeting]) =
      ⟨"New Contact", "", "", "", "", false⟩) := by
  refine ⟨?_, ?_, ?_⟩
  · have h := ((C1_amended_status_precedence wAnalysisNC 0 [wNextMeeting]).1 wNextMeeting
      (by decide)).2.2.1
    rw [h]
    decide
  · exact (C1_amended_status_precedence wAnalysisNC 0 [wNextMeeting]).2.1 wNextMeeting
      (by decide) (by decide) (by decide)
  · have h := ((C1_amended_status_precedence wAnalysisNC 0 [wPastMeeting]).2.2.2 wPastMeeting
      (by decide) (by decide)).2
    rw [h]
    decide

/-! ### Claim C9: organization never overwritten -/

theorem get?_set_self' {α : Type} {l : List α} {j : Nat} {a b : α}
    (h : l.get? j = some a) : (l.set j b).get? j = some b := by
  rw [List.get?_set_eq, h]
  rfl

theorem get?_set_ne' {α : Type} {l : List α} {j k : Nat} (b : α) (h : j ≠ k) :
    (l.set j b).get? k = l.get? k :=
  List.get?_set_ne b l h

theorem get?_append_left' {α : Type} {l : List α} {j : Nat} {a : α} (x : α)
    (h : l.get? j = some a) : (l ++ [x]).get? j = some a := by
  have hlt : j < l.length := by
    by_contra hge
    rw [List.get?_eq_getElem?, List.getElem?_eq_none (by omega)] at h
    exact Option.noConfusion h
  rw [List.get?_append hlt]
  exact h

/-- A hit from `findInvestorByEmail` is the read view of the raw row at
the returned position. -/
theorem findInvestorByEmail_some_raw (s : Store) (email : String) (j : Nat) (rv : Investor)
    (h : findInvestorByEmail s email = some (j, rv)) :
    ∃ raw, s.get? j = some raw ∧ rv = raw.view := by
  unfold findInvestorByEmail at h
  dsimp only at h
  cases h1 : findIdxAndVal (emailEqP (lowerStr email)) s with
  | some x =>
    obtain ⟨j', r'⟩ := x
    rw [h1] at h
    injection h with h
    injection h with h2 h3
    subst h2; subst h3
    exact ⟨r', (findIdxAndVal_some h1).1, rfl⟩
  | none =>
    rw [h1, Option.map_eq_some'] at h
    obtain ⟨⟨j', r'⟩, hf, he⟩ := h
    injection he with h2 h3
    subst h2; subst h3
    exact ⟨r', (findIdxAndVal_some hf).1, rfl⟩

/-- A hit from `findInvestorByName` is the read view of the raw row at
the returned position. -/
theorem findInvestorByName_some_raw (s : Store) (name : String) (j : Nat) (rv : Investor)
    (h : findInvestorByName s name = some (j, rv)) :
    ∃ raw, s.get? j = some raw ∧ rv = raw.view := by
  unfold findInvestorByName at h
  by_cases hn : name = ""
  · rw [if_pos hn] at h
    exact absurd h (by simp)
  · rw [if_neg hn] at h
    dsimp only at h
    cases h1 : findIdxAndVal (nameExactP (jsTrim (lowerStr name))) s with
    | some x =>
      obtain ⟨j', r'⟩ := x
      rw [h1] at h
      injection h with h
      injection h with h2 h3
      subst h2; subst h3
      exact ⟨r', (findIdxAndVal_some h1).1, rfl⟩
    | none =>
      rw [h1] at h
      by_cases hp : (jsSplitWs (jsTrim (lowerStr name))).length ≥ 2
      · rw [if_pos hp, Option.map_eq_some'] at h
        obtain ⟨⟨j', r'⟩, hf, he⟩ := h
        injection he with h2 h3
        subst h2; subst h3
        exact ⟨r', (findIdxAndVal_some hf).1, rfl⟩
      · rw [if_neg hp] at h
        exact absurd h (by simp)

/-- A non-empty company cell is never rewritten by `processEmail`: the
update branch guards the write with `!existingInvestor.company`, the
found-by-name branch never writes it, and the create branch appends a
fresh row. -/
theorem processEmail_company_preserved (inp : SyncInput) (s : Store) (j : Nat) (r : Investor)
    (hj : s.get? j = some r) (hc : r.company ≠ "") :
    ∃ r2, (processEmail inp s).1.get? j = some r2 ∧ r2.company = r.company := by
  cases hA : inp.analysis with
  | none =>
    exact ⟨r, by rw [show (processEmail inp s).1 = s by simp [processEmail, hA]]; exact hj, rfl⟩
  | some a =>
    cases hR : a.isRelevant with
    | false =>
      exact ⟨r, by rw [show (processEmail inp s).1 = s by simp [processEmail, hA, hR]]; exact hj,
        rfl⟩
    | true =>
      cases hV : a.isVCInvestor with
      | false =>
        exact ⟨r,
          by rw [show (processEmail inp s).1 = s by simp [processEmail, hA, hR, hV]]; exact hj,
          rfl⟩
      | true =>
        cases hF : findInvestorByEmail s inp.email.from_ with
        | some x =>
          obtain ⟨j', rv⟩ := x
          obtain ⟨raw, hraw, hrv⟩ := findInvestorByEmail_some_raw s _ j' rv hF
          have hstore : (processEmail inp s).1 =
              (let d := deriveMeetingSync a
                (getNextMeetingWithAttendee inp.now (inp.calendar (lowerStr rv.email)))
                (getLastMeetingWithAttendee inp.now (inp.calendar (lowerStr rv.email)))
               let fmtDate := if d.meetingDate = "" then "" else formatMeetingDate d.meetingDate
               let u := applyUpdateSync a d fmtDate (determineWith inp.email) inp.today rv raw
               s.set j' (if a.noteSummary = "" then u
                 else { u with notes := concatNotes rv.notes a.noteSummary })) := by
            by_cases hns : a.noteSummary = ""
            · simp [processEmail, hA, hR, hV, hF, hns,
                updateInvestor_eq_set _ hraw]
            · simp only [processEmail, hA, hR, hV, hF, hns]
              rw [updateInvestor_eq_set _ hraw]
              rw [updateInvestor_eq_set _ (get?_set_self' hraw)]
              simp [hns, List.set_set]
          rw [hstore]
          dsimp only
          by_cases hjj : j' = j
          · subst hjj
            have hrr : raw = r := by
              rw [hraw] at hj
              injection hj
            subst hrr
            refine ⟨_, get?_set_self' hraw, ?_⟩
            have hcomp : (applyUpdateSync a
                (deriveMeetingSync a
                  (getNextMeetingWithAttendee inp.now (inp.calendar (lowerStr rv.email)))
                  (getLastMeetingWithAttendee inp.now (inp.calendar (lowerStr rv.email))))
                (if (deriveMeetingSync a
                  (getNextMeetingWithAttendee inp.now (inp.calendar (lowerStr rv.email)))
                  (getLastMeetingWithAttendee inp.now (inp.calendar (lowerStr rv.email)))).meetingDate = ""
                  then ""
                  else formatMeetingDate (deriveMeetingSync a
                    (getNextMeetingWithAttendee inp.now (inp.calendar (lowerStr rv.email)))
                    (getLastMeetingWithAttendee inp.now (inp.calendar (lowerStr rv.email)))).meetingDate)
                (determineWith inp.email) inp.today rv raw).company = raw.company := by
              rw [applyUpdateSync]
              have : ¬(a.company ≠ "" ∧ rv.company = "") := by
                intro hand
                rw [hrv] at hand
                exact hc (by rw [← view_company raw]; exact hand.2)
              simp [this]
            by_cases hns : a.noteSummary = ""
            · rw [if_pos hns]
              exact hcomp
            · rw [if_neg hns]
              exact hcomp
          · exact ⟨r, by rw [get?_set_ne' _ hjj]; exact hj, rfl⟩
        | none =>
          cases hN : findInvestorByName s
              (if a.investorName = "" then inp.email.fromName else a.investorName) with
          | some x =>
            obtain ⟨j', rv⟩ := x
            obtain ⟨raw, hraw, hrv⟩ := findInvestorByName_some_raw s _ j' rv hN
            have hstore : (processEmail inp s).1 =
                (let d := deriveMeetingSync a
                  (getNextMeetingWithAttendee inp.now (inp.calendar (lowerStr inp.email.from_)))
                  (getLastMeetingWithAttendee inp.now (inp.calendar (lowerStr inp.email.from_)))
                 let fmtDate := if d.meetingDate = "" then "" else formatMeetingDate d.meetingDate
                 let u := applyUpdateByName d fmtDate (determineWith inp.email) inp.today
                   inp.email.from_ rv raw
                 s.set j' (if a.noteSummary = "" then u
                   else { u with notes := concatNotes rv.notes a.noteSummary })) := by
              by_cases hns : a.noteSummary = ""
              · simp [processEmail, hA, hR, hV, hF, hN, hns,
                  updateInvestor_eq_set _ hraw]
              · simp only [processEmail, hA, hR, hV, hF, hN, hns]
                rw [updateInvestor_eq_set _ hraw]
                rw [updateInvestor_eq_set _ (get?_set_self' hraw)]
                simp [hns, List.set_set]
            rw [hstore]
            dsimp only
            by_cases hjj : j' = j
            · subst hjj
              have hrr : raw = r := by
                rw [hraw] at hj
                injection hj
              subst hrr
              refine ⟨_, get?_set_self' hraw, ?_⟩
              by_cases hns : a.noteSummary = ""
              · rw [if_pos hns]
                rfl
              · rw [if_neg hns]
                rfl
            · exact ⟨r, by rw [get?_set_ne' _ hjj]; exact hj, rfl⟩
          | none =>
            refine ⟨r, ?_, rfl⟩
            have hstore : (processEmail inp s).1 = s ++ [newInvestorSync a
              (deriveMeetingSync a
                (getNextMeetingWithAttendee inp.now (inp.calendar (lowerStr inp.email.from_)))
                (getLastMeetingWithAttendee inp.now (inp.calendar (lowerStr inp.email.from_))))
              (if a.investorName = "" then inp.email.fromName else a.investorName)
              inp.email.from_
              (if (deriveMeetingSync a
                (getNextMeetingWithAttendee inp.now (inp.calendar (lowerStr inp.email.from_)))
                (getLastMeetingWithAttendee inp.now (inp.calendar (lowerStr inp.email.from_)))).meetingDate = ""
                then ""
                else formatMeetingDate (deriveMeetingSync a
                  (getNextMeetingWithAttendee inp.now (inp.calendar (lowerStr inp.email.from_)))
                  (getLastMeetingWithAttendee inp.now (inp.calendar (lowerStr inp.email.from_)))).meetingDate)
              (determineWith inp.email) inp.today] := by
              simp [processEmail, hA, hR, hV, hF, hN, addInvestor]
            rw [hstore]
            exact get?_append_left' _ hj

/-- A non-empty company cell is never rewritten by `processContact`. -/
theorem processContact_company_preserved (inp : BackfillInput) (s : Store) (j : Nat)
    (r : Investor) (hj : s.get? j = some r) (hc : r.company ≠ "") :
    ∃ r2, (processContact inp s).1.get? j = some r2 ∧ r2.company = r.company := by
  cases hL : (sortEmailsByDate inp.emails).getLast? with
  | none =>
    exact ⟨r, by rw [show (processContact inp s).1 = s by simp [processContact, hL]]; exact hj,
      rfl⟩
  | some latest =>
    cases hA : inp.analysis with
    | none =>
      exact ⟨r,
        by rw [show (processContact inp s).1 = s by simp [processContact, hL, hA]]; exact hj,
        rfl⟩
    | some a =>
      cases hR : a.isRelevant with
      | false =>
        exact ⟨r,
          by rw [show (processContact inp s).1 = s by simp [processContact, hL, hA, hR]]
             exact hj, rfl⟩
      | true =>
        cases hV : a.isVCInvestor with
        | false =>
          exact ⟨r,
            by rw [show (processContact inp s).1 = s by simp [processContact, hL, hA, hR, hV]]
               exact hj, rfl⟩
        | true =>
          cases hF : findInvestorByEmail s inp.contactEmail with
          | some x =>
            obtain ⟨j', rv⟩ := x
            obtain ⟨raw, hraw, hrv⟩ := findInvestorByEmail_some_raw s _ j' rv hF
            set d := deriveMeetingBackfill a
              (getNextMeetingWithAttendee inp.now (inp.calendar (lowerStr inp.contactEmail)))
              (getLastMeetingWithAttendee inp.now (inp.calendar (lowerStr inp.contactEmail)))
              with hd
            set notes := if inp.emails.length > 1 ∧ inp.threadSummary ≠ "" then inp.threadSummary
              else a.noteSummary with hnotes
            set fmtDate := if d.meetingDate = "" then "" else formatMeetingDate d.meetingDate
              with hfmt
            set u := applyUpdateBackfill a d fmtDate (determineWithAll inp.emails)
              latest.date.date rv raw with hu
            have hstore : (processContact inp s).1 =
                s.set j' (if notes = "" then u
                  else { u with notes := appendNotesText inp.today notes rv.notes }) := by
              by_cases hns : notes = ""
              · simp [processContact, hL, hA, hR, hV, hF, ← hd, ← hnotes, ← hfmt, hns,
                  updateInvestor_eq_set _ hraw]
              · simp only [processContact, hL, hA, hR, hV, hF, ← hd, ← hnotes, ← hfmt, hns]
                rw [updateInvestor_eq_set _ hraw]
                rw [updateInvestor_eq_set _ (get?_set_self' hraw)]
                simp [hns, List.set_set]
            rw [hstore]
            by_cases hjj : j' = j
            · subst hjj
              have hrr : raw = r := by
                rw [hraw] at hj
                injection hj
              subst hrr
              refine ⟨_, get?_set_self' hraw, ?_⟩
              have hcomp : u.company = raw.company := by
                rw [hu, applyUpdateBackfill]
                have : ¬(a.company ≠ "" ∧ rv.company = "") := by
                  intro hand
                  rw [hrv] at hand
                  exact hc (by rw [← view_company raw]; exact hand.2)
                simp [this]
              by_cases hns : notes = ""
              · rw [if_pos hns]
                exact hcomp
              · rw [if_neg hns]
                exact hcomp
            · exact ⟨r, by rw [get?_set_ne' _ hjj]; exact hj, rfl⟩
          | none =>
            refine ⟨r, ?_, rfl⟩
            set d := deriveMeetingBackfill a
              (getNextMeetingWithAttendee inp.now (inp.calendar (lowerStr inp.contactEmail)))
              (getLastMeetingWithAttendee inp.now (inp.calendar (lowerStr inp.contactEmail)))
              with hd
            set notes := if inp.emails.length > 1 ∧ inp.threadSummary ≠ "" then inp.threadSummary
              else a.noteSummary with hnotes
            set fmtDate := if d.meetingDate = "" then "" else formatMeetingDate d.meetingDate
              with hfmt
            have hstore : (processContact inp s).1 = s ++ [newInvestorBackfill a d
                (if a.investorName = "" then latest.fromName else a.investorName)
                inp.contactEmail fmtDate (determineWithAll inp.emails) latest.date.date
                notes] := by
              simp [processContact, hL, hA, hR, hV, hF, addInvestor, ← hd, ← hnotes, ← hfmt]
            rw [hstore]
            exact get?_append_left' _ hj

/-! Row-level frame: `updateInvestor` in `sheets.js` issues one ranged
write per update field at that field's bound column; cells of unbound or
unwritten columns are untouched. -/

/-- The row-level `updateInvestor` of `sheets.js`: one cell write per
update entry whose field has a bound column. -/
def updateInvestorRow (m : List (FieldName × Nat)) (updates : List (FieldName × String))
    (row : List String) : List String :=
  updates.foldl
    (fun acc fv =>
      match getColumnIndex m fv.1 with
      | some ci => acc.set ci fv.2
      | none => acc)
    row

theorem updateInvestorRow_frame (m : List (FieldName × Nat)) :
    ∀ (updates : List (FieldName × String)) (row : List String) (k : Nat),
      (∀ fv ∈ updates, getColumnIndex m fv.1 ≠ some k) →
      (updateInvestorRow m updates row).get? k = row.get? k := by
  intro updates
  induction updates with
  | nil => intro row k _; rfl
  | cons fv rest ih =>
    intro row k h
    rw [updateInvestorRow, List.foldl_cons]
    cases hci : getColumnIndex m fv.1 with
    | none =>
      dsimp only
      exact ih row k (fun g hg => h g (List.mem_cons_of_mem fv hg))
    | some ci =>
      dsimp only
      have hcik : ci ≠ k := by
        intro he
        exact h fv (List.mem_cons_self fv rest) (he ▸ hci)
      rw [show (List.foldl (fun acc fv =>
          match getColumnIndex m fv.1 with
          | some ci => acc.set ci fv.2
          | none => acc) (row.set ci fv.2) rest) =
        updateInvestorRow m rest (row.set ci fv.2) from rfl]
      rw [ih (row.set ci fv.2) k (fun g hg => h g (List.mem_cons_of_mem fv hg))]
      exact get?_set_ne' _ hcik

end ZCRM

namespace ZCRM

/-- Claim C9: an existing non-empty organization cell survives every
processing path of both drivers, whatever the classifier reports; and at
the sheet level, a cell in a column not bound to any written field is
untouched by `updateInvestor`. -/
theorem C9_organization_preserved :
    (∀ (inp : SyncInput) (s : Store) (j : Nat) (r : Investor),
        s.get? j = some r → r.company ≠ "" →
        ∃ r2, (processEmail inp s).1.get? j = some r2 ∧ r2.company = r.company) ∧
    (∀ (inp : BackfillInput) (s : Store) (j : Nat) (r : Investor),
        s.get? j = some r → r.company ≠ "" →
        ∃ r2, (processContact inp s).1.get? j = some r2 ∧ r2.company = r.company) ∧
    (∀ (m : List (FieldName × Nat)) (updates : List (FieldName × String))
        (row : List String) (k : Nat),
        (∀ fv ∈ updates, getColumnIndex m fv.1 ≠ some k) →
        (updateInvestorRow m updates row).get? k = row.get? k) :=
  ⟨processEmail_company_preserved, processContact_company_preserved,
    fun m updates row k h => updateInvestorRow_frame m updates row k h⟩

/-- Fixture for the C9 witness: a record with organization already set,
and a classifier reporting a different organization. -/
def wStoreC9 : Store :=
  [{ Investor.blank with name := "Jane", email := "jane@x.com", company := "Acme Ventures" }]

def wInputC9 : SyncInput :=
  ⟨{ wEmail with from_ := "jane@x.com" }, some ⟨"Jane", "Other Fund", "", "", "- n", true, true⟩,
    fun _ => [], 0, "2025-01-06"⟩

/-- Witness for C9: the merge leaves "Acme Ventures" in place although the
classifier reported "Other Fund", and an unmapped trailing cell survives a
row update. -/
theorem C9_witness :
    (∃ r2, (processEmail wInputC9 wStoreC9).1.get? 0 = some r2 ∧
      r2.company = "Acme Ventures") ∧
    (updateInvestorRow (discoverColumns ["Name", "Email"]) [(FieldName.name, "Jane")]
        ["Old", "j@x.com", "opaque"]).get? 2 = some "opaque" := by
  constructor
  · obtain ⟨r2, h1, h2⟩ := C9_organization_preserved.1 wInputC9 wStoreC9 0
      { Investor.blank with name := "Jane", email := "jane@x.com", company := "Acme Ventures" }
      (by decide) (by decide)
    exact ⟨r2, h1, by rw [h2]⟩
  · have h := C9_organization_preserved.2.2 (discoverColumns ["Name", "Email"])
      [(FieldName.name, "Jane")] ["Old", "j@x.com", "opaque"] 2 (by decide)
    rw [h]
    rfl

/-! ### Branch characterizations of `processEmail`

Named forms of the three non-skip outcomes, used by the idempotence and
uniqueness claims. -/

/-- The derivation `processEmail` performs for a given contact address. -/
def syncDerived (a : Analysis) (inp : SyncInput) (contactEmail : String) : Derived :=
  deriveMeetingSync a
    (getNextMeetingWithAttendee inp.now (inp.calendar (lowerStr contactEmail)))
    (getLastMeetingWithAttendee inp.now (inp.calendar (lowerStr contactEmail)))

/-- `formattedMeetingDate` of `processEmail`. -/
def syncFmtDate (d : Derived) : String :=
  if d.meetingDate = "" then "" else formatMeetingDate d.meetingDate

/-- The row left behind by the update branch (field updates plus the
in-place notes concatenation). -/
def syncUpdatedRow (a : Analysis) (inp : SyncInput) (rv raw : Investor) : Investor :=
  let d := syncDerived a inp rv.email
  let u := applyUpdateSync a d (syncFmtDate d) (determineWith inp.email) inp.today rv raw
  if a.noteSummary = "" then u else { u with notes := concatNotes rv.notes a.noteSummary }

/-- The row left behind by the found-by-name branch. -/
def nameUpdatedRow (a : Analysis) (inp : SyncInput) (rv raw : Investor) : Investor :=
  let d := syncDerived a inp inp.email.from_
  let u := applyUpdateByName d (syncFmtDate d) (determineWith inp.email) inp.today
    inp.email.from_ rv raw
  if a.noteSummary = "" then u else { u with notes := concatNotes rv.notes a.noteSummary }

/-- The row appended by the create branch. -/
def syncNewRow (a : Analysis) (inp : SyncInput) : Investor :=
  let d := syncDerived a inp inp.email.from_
  newInvestorSync a d (if a.investorName = "" then inp.email.fromName else a.investorName)
    inp.email.from_ (syncFmtDate d) (determineWith inp.email) inp.today

theorem processEmail_update_store (inp : SyncInput) (s : Store) (a : Analysis)
    (j : Nat) (rv raw : Investor)
    (hA : inp.analysis = some a) (hR : a.isRelevant = true) (hV : a.isVCInvestor = true)
    (hF : findInvestorByEmail s inp.email.from_ = some (j, rv))
    (hraw : s.get? j = some raw) :
    processEmail inp s = (s.set j (syncUpdatedRow a inp rv raw), .updated rv.name) := by
  by_cases hns : a.noteSummary = ""
  · simp [processEmail, hA, hR, hV, hF, hns, updateInvestor_eq_set _ hraw,
      syncUpdatedRow, syncDerived, syncFmtDate]
  · simp only [processEmail, hA, hR, hV, hF, hns]
    rw [updateInvestor_eq_set _ hraw]
    rw [updateInvestor_eq_set _ (get?_set_self' hraw)]
    simp [hns, List.set_set, syncUpdatedRow, syncDerived, syncFmtDate]

theorem processEmail_name_store (inp : SyncInput) (s : Store) (a : Analysis)
    (j : Nat) (rv raw : Investor)
    (hA : inp.analysis = some a) (hR : a.isRelevant = true) (hV : a.isVCInvestor = true)
    (hF : findInvestorByEmail s inp.email.from_ = none)
    (hN : findInvestorByName s
      (if a.investorName = "" then inp.email.fromName else a.investorName) = some (j, rv))
    (hraw : s.get? j = some raw) :
    processEmail inp s = (s.set j (nameUpdatedRow a inp rv raw), .updated rv.name) := by
  by_cases hns : a.noteSummary = ""
  · simp [processEmail, hA, hR, hV, hF, hN, hns, updateInvestor_eq_set _ hraw,
      nameUpdatedRow, syncDerived, syncFmtDate]
  · simp only [processEmail, hA, hR, hV, hF, hN, hns]
    rw [updateInvestor_eq_set _ hraw]
    rw [updateInvestor_eq_set _ (get?_set_self' hraw)]
    simp [hns, List.set_set, nameUpdatedRow, syncDerived, syncFmtDate]

theorem processEmail_create_store (inp : SyncInput) (s : Store) (a : Analysis)
    (hA : inp.analysis = some a) (hR : a.isRelevant = true) (hV : a.isVCInvestor = true)
    (hF : findInvestorByEmail s inp.email.from_ = none)
    (hN : findInvestorByName s
      (if a.investorName = "" then inp.email.fromName else a.investorName) = none) :
    processEmail inp s = (s ++ [syncNewRow a inp],
      .added (if a.investorName = "" then inp.email.fromName else a.investorName)) := by
  simp [processEmail, hA, hR, hV, hF, hN, addInvestor, syncNewRow, syncDerived, syncFmtDate]

/-! ### Stability of resolution under the rewrites a cycle performs -/

theorem syncUpdatedRow_email (a : Analysis) (inp : SyncInput) (rv raw : Investor) :
    (syncUpdatedRow a inp rv raw).email = raw.email := by
  rw [syncUpdatedRow]
  by_cases hns : a.noteSummary = ""
  · simp [hns, applyUpdateSync]
  · simp [hns, applyUpdateSync]

theorem syncUpdatedRow_name (a : Analysis) (inp : SyncInput) (rv raw : Investor) :
    (syncUpdatedRow a inp rv raw).name = raw.name := by
  rw [syncUpdatedRow]
  by_cases hns : a.noteSummary = ""
  · simp [hns, applyUpdateSync]
  · simp [hns, applyUpdateSync]

theorem nameUpdatedRow_email (a : Analysis) (inp : SyncInput) (rv raw : Investor) :
    (nameUpdatedRow a inp rv raw).email =
      (if rv.email ≠ "" then rv.email else inp.email.from_) := by
  rw [nameUpdatedRow]
  by_cases hns : a.noteSummary = ""
  · simp [hns, applyUpdateByName]
  · simp [hns, applyUpdateByName]

theorem nameUpdatedRow_name (a : Analysis) (inp : SyncInput) (rv raw : Investor) :
    (nameUpdatedRow a inp rv raw).name = raw.name := by
  rw [nameUpdatedRow]
  by_cases hns : a.noteSummary = ""
  · simp [hns, applyUpdateByName]
  · simp [hns, applyUpdateByName]

theorem syncNewRow_email (a : Analysis) (inp : SyncInput) :
    (syncNewRow a inp).email = inp.email.from_ := rfl

theorem emailEqP_congr (el : String) {x y : Investor} (h : x.email = y.email) :
    emailEqP el x = emailEqP el y := by
  simp [emailEqP, h]

theorem localPartP_congr (el : String) {x y : Investor} (h : x.name = y.name) :
    localPartP el x = localPartP el y := by
  simp [localPartP, h]

theorem nameExactP_congr (nl : String) {x y : Investor} (h : x.name = y.name) :
    nameExactP nl x = nameExactP nl y := by
  simp [nameExactP, h]

theorem namePartsP_congr (parts : List String) {x y : Investor} (h : x.name = y.name) :
    namePartsP parts x = namePartsP parts y := by
  simp [namePartsP, h]

theorem findInvestorByEmail_none_stage1 (s : Store) (e : String)
    (h : findInvestorByEmail s e = none) :
    findIdxAndVal (emailEqP (lowerStr e)) s = none := by
  unfold findInvestorByEmail at h
  dsimp only at h
  cases h1 : findIdxAndVal (emailEqP (lowerStr e)) s with
  | some x =>
    obtain ⟨j, r⟩ := x
    rw [h1] at h
    exact absurd h (by simp)
  | none => rfl

theorem findInvestorByEmail_none_stage2 (s : Store) (e : String)
    (h : findInvestorByEmail s e = none) :
    findIdxAndVal (localPartP (lowerStr e)) s = none := by
  unfold findInvestorByEmail at h
  dsimp only at h
  cases h1 : findIdxAndVal (emailEqP (lowerStr e)) s with
  | some x =>
    obtain ⟨j, r⟩ := x
    rw [h1] at h
    exact absurd h (by simp)
  | none =>
    rw [h1, Option.map_eq_none'] at h
    exact h

theorem get?_mem' {α : Type} {l : List α} {j : Nat} {a : α} (h : l.get? j = some a) : a ∈ l := by
  induction l generalizing j with
  | nil => simp at h
  | cons x t ih =>
    cases j with
    | zero =>
      rw [List.get?_cons_zero] at h
      injection h with h
      subst h
      exact List.mem_cons_self x t
    | succ j' =>
      rw [List.get?_cons_succ] at h
      exact List.mem_cons_of_mem x (ih h)

/-- After the update branch rewrites a row without changing its email or
name, the email resolver still finds the same row. -/
theorem findInvestorByEmail_set_stable (s : Store) (e : String) (j : Nat)
    (rv raw y : Investor)
    (hF : findInvestorByEmail s e = some (j, rv)) (hraw : s.get? j = some raw)
    (hem : y.email = raw.email) (hnm : y.name = raw.name) :
    findInvestorByEmail (s.set j y) e = some (j, y.view) := by
  unfold findInvestorByEmail at hF ⊢
  dsimp only at hF ⊢
  cases h1 : findIdxAndVal (emailEqP (lowerStr e)) s with
  | some x =>
    obtain ⟨j', r'⟩ := x
    rw [h1] at hF
    injection hF with hF
    injection hF with hF1 hF2
    subst hF1
    have hg := (findIdxAndVal_some h1).1
    rw [hraw] at hg
    have hr' : r' = raw := (Option.some.inj hg).symm
    subst hr'
    have hp : emailEqP (lowerStr e) y = true := by
      rw [emailEqP_congr (lowerStr e) hem]
      exact (findIdxAndVal_some h1).2
    rw [findIdxAndVal_set_hit h1 hp]
  | none =>
    rw [h1, Option.map_eq_some'] at hF
    obtain ⟨⟨j', r'⟩, hf, he⟩ := hF
    dsimp only at he
    injection he with he1 he2
    subst he1
    have hg := (findIdxAndVal_some hf).1
    rw [hraw] at hg
    have hr' : r' = raw := (Option.some.inj hg).symm
    subst hr'
    have hp1 : emailEqP (lowerStr e) y = false := by
      rw [emailEqP_congr (lowerStr e) hem]
      exact (findIdxAndVal_none_iff.mp h1) r' (get?_mem' hraw)
    have hp2 : localPartP (lowerStr e) y = true := by
      rw [localPartP_congr (lowerStr e) hnm]
      exact (findIdxAndVal_some hf).2
    rw [findIdxAndVal_set_none h1 hp1, findIdxAndVal_set_hit hf hp2]
    rfl

/-- When a row acquires the searched email, the email resolver finds it at
its position (no earlier row matched). -/
theorem findInvestorByEmail_hit_new (s : Store) (e : String) (j : Nat) (raw y : Investor)
    (h1 : findIdxAndVal (emailEqP (lowerStr e)) s = none)
    (hraw : s.get? j = some raw)
    (hy : lowerStr y.email = lowerStr e) :
    findInvestorByEmail (s.set j y) e = some (j, y.view) := by
  unfold findInvestorByEmail
  dsimp only
  have hp : emailEqP (lowerStr e) y = true := by
    simp [emailEqP, hy]
  rw [findIdxAndVal_set_hit_of_none h1 hraw hp]

/-- The appended row of the create branch carries the searched email, so
the next cycle's email resolver finds it at the end of the store. -/
theorem findInvestorByEmail_append_new (s : Store) (e : String) (x : Investor)
    (hF : findInvestorByEmail s e = none) (hx : lowerStr x.email = lowerStr e) :
    findInvestorByEmail (s ++ [x]) e = some (s.length, x.view) := by
  have h1 := findInvestorByEmail_none_stage1 s e hF
  unfold findInvestorByEmail
  dsimp only
  have hp : emailEqP (lowerStr e) x = true := by
    simp [emailEqP, hx]
  rw [findIdxAndVal_append h1, if_pos hp]

/-- A rewrite that keeps a row's normalized email different from the
searched one, and keeps its name, leaves the email resolver empty. -/
theorem findInvestorByEmail_set_none (s : Store) (e : String) (j : Nat) (raw y : Investor)
    (hF : findInvestorByEmail s e = none) (hraw : s.get? j = some raw)
    (hem : lowerStr y.email = lowerStr raw.email) (hnm : y.name = raw.name) :
    findInvestorByEmail (s.set j y) e = none := by
  have h1 := findInvestorByEmail_none_stage1 s e hF
  have h2 := findInvestorByEmail_none_stage2 s e hF
  unfold findInvestorByEmail
  dsimp only
  have hp1 : emailEqP (lowerStr e) y = false := by
    have hraw1 : emailEqP (lowerStr e) raw = false :=
      (findIdxAndVal_none_iff.mp h1) raw (get?_mem' hraw)
    simp only [emailEqP] at hraw1 ⊢
    rw [hem]
    exact hraw1
  have hp2 : localPartP (lowerStr e) y = false := by
    rw [localPartP_congr (lowerStr e) hnm]
    exact (findIdxAndVal_none_iff.mp h2) raw (get?_mem' hraw)
  rw [findIdxAndVal_set_none h1 hp1, findIdxAndVal_set_none h2 hp2]
  rfl

/-- After the found-by-name branch rewrites its row without changing the
name, the name resolver still finds the same row. -/
theorem findInvestorByName_set_stable (s : Store) (name : String) (j : Nat)
    (rv raw y : Investor)
    (hN : findInvestorByName s name = some (j, rv)) (hraw : s.get? j = some raw)
    (hnm : y.name = raw.name) :
    findInvestorByName (s.set j y) name = some (j, y.view) := by
  unfold findInvestorByName at hN ⊢
  by_cases hn : name = ""
  · rw [if_pos hn] at hN
    exact absurd hN (by simp)
  · rw [if_neg hn] at hN ⊢
    dsimp only at hN ⊢
    cases h1 : findIdxAndVal (nameExactP (jsTrim (lowerStr name))) s with
    | some x =>
      obtain ⟨j', r'⟩ := x
      rw [h1] at hN
      injection hN with hN
      injection hN with hN1 hN2
      subst hN1
      have hg := (findIdxAndVal_some h1).1
      rw [hraw] at hg
      have hr' : r' = raw := (Option.some.inj hg).symm
      subst hr'
      have hp : nameExactP (jsTrim (lowerStr name)) y = true := by
        rw [nameExactP_congr _ hnm]
        exact (findIdxAndVal_some h1).2
      rw [findIdxAndVal_set_hit h1 hp]
    | none =>
      rw [h1] at hN
      by_cases hl : (jsSplitWs (jsTrim (lowerStr name))).length ≥ 2
      · rw [if_pos hl, Option.map_eq_some'] at hN
        obtain ⟨⟨j', r'⟩, hf, he⟩ := hN
        dsimp only at he
        injection he with he1 he2
        subst he1
        have hg := (findIdxAndVal_some hf).1
        rw [hraw] at hg
        have hr' : r' = raw := (Option.some.inj hg).symm
        subst hr'
        have hp1 : nameExactP (jsTrim (lowerStr name)) y = false := by
          rw [nameExactP_congr _ hnm]
          exact (findIdxAndVal_none_iff.mp h1) r' (get?_mem' hraw)
        have hp2 : namePartsP (jsSplitWs (jsTrim (lowerStr name))) y = true := by
          rw [namePartsP_congr _ hnm]
          exact (findIdxAndVal_some hf).2
        rw [findIdxAndVal_set_none h1 hp1, if_pos hl, findIdxAndVal_set_hit hf hp2]
        rfl
      · rw [if_neg hl] at hN
        exact absurd hN (by simp)

/-! ### Replaying the write-set: the second application is inert
except for the notes concatenation and the company backstop -/

theorem applyUpdateSync_fill (a : Analysis) (d : Derived) (fmt mw today : String)
    (z : Investor)
    (hlc : z.lastContact = today)
    (hms : d.meetingStatus ≠ "" → z.meetingStatus = d.meetingStatus)
    (hmd : fmt ≠ "" → z.meetingDate = fmt)
    (hmt : d.meetingTime ≠ "" → z.meetingTime = d.meetingTime)
    (hw : z.with_ = mw)
    (hcal : d.calendarLink ≠ "" → z.calendarLink = d.calendarLink)
    (hml : d.meetLink ≠ "" → z.meetLink = d.meetLink)
    (hnr : z.needsResponse = (if d.needsResponse then "Yes" else "No")) :
    applyUpdateSync a d fmt mw today z.view z =
      { z with company := if a.company ≠ "" ∧ z.company = "" then a.company
        else z.company } := by
  obtain ⟨n, em, co, ms, md, mt, lc, w, cal, ml, nr, no⟩ := z
  simp only [Investor.view] at *
  rw [applyUpdateSync]
  dsimp only
  simp only [Investor.mk.injEq, true_and, and_true]
  refine ⟨?_, ?_, ?_, hlc.symm, hw.symm, ?_, ?_, hnr.symm⟩
  · by_cases hd : d.meetingStatus = ""
    · simp [hd]
    · rw [hms hd]
      simp
  · by_cases hf : fmt = ""
    · simp [hf]
    · rw [hmd hf]
      simp [hf]
  · by_cases ht : d.meetingTime = ""
    · simp [ht]
    · rw [hmt ht]
      simp [ht]
  · by_cases hc : d.calendarLink = ""
    · simp [hc]
    · rw [hcal hc]
      simp [hc]
  · by_cases hm : d.meetLink = ""
    · simp [hm]
    · rw [hml hm]
      simp [hm]

theorem applyUpdateByName_restable (d : Derived) (fmt mw today fromAddr : String)
    (z : Investor)
    (hlc : z.lastContact = today)
    (hem : (if lowerStr z.email ≠ "" then lowerStr z.email else fromAddr) = z.email)
    (hms : d.meetingStatus ≠ "" → z.meetingStatus = d.meetingStatus)
    (hmd : fmt ≠ "" → z.meetingDate = fmt)
    (hmt : d.meetingTime ≠ "" → z.meetingTime = d.meetingTime)
    (hw : z.with_ = mw)
    (hcal : d.calendarLink ≠ "" → z.calendarLink = d.calendarLink)
    (hml : d.meetLink ≠ "" → z.meetLink = d.meetLink)
    (hnr : z.needsResponse = (if d.needsResponse then "Yes" else "No")) :
    applyUpdateByName d fmt mw today fromAddr z.view z = z := by
  obtain ⟨n, em, co, ms, md, mt, lc, w, cal, ml, nr, no⟩ := z
  simp only [Investor.view] at *
  rw [applyUpdateByName]
  dsimp only
  simp only [Investor.mk.injEq, true_and, and_true]
  refine ⟨hem, ?_, ?_, ?_, hlc.symm, hw.symm, ?_, ?_, hnr.symm⟩
  · by_cases hd : d.meetingStatus = ""
    · simp [hd]
    · rw [hms hd]
      simp [hd]
  · by_cases hf : fmt = ""
    · simp [hf]
    · rw [hmd hf]
      simp [hf]
  · by_cases ht : d.meetingTime = ""
    · simp [ht]
    · rw [hmt ht]
      simp [ht]
  · by_cases hc : d.calendarLink = ""
    · simp [hc]
    · rw [hcal hc]
      simp [hc]
  · by_cases hm : d.meetLink = ""
    · simp [hm]
    · rw [hml hm]
      simp [hm]

/-- The update-branch row written out, as one explicit record. -/
theorem syncUpdatedRow_eq (a : Analysis) (inp : SyncInput) (rv raw : Investor) :
    syncUpdatedRow a inp rv raw =
      { raw with
        lastContact := inp.today
        meetingStatus := if (syncDerived a inp rv.email).meetingStatus ≠ "" ∧
            (syncDerived a inp rv.email).meetingStatus ≠ rv.meetingStatus
          then (syncDerived a inp rv.email).meetingStatus else raw.meetingStatus
        meetingDate := if syncFmtDate (syncDerived a inp rv.email) ≠ ""
          then syncFmtDate (syncDerived a inp rv.email) else raw.meetingDate
        meetingTime := if (syncDerived a inp rv.email).meetingTime ≠ ""
          then (syncDerived a inp rv.email).meetingTime else raw.meetingTime
        with_ := determineWith inp.email
        calendarLink := if (syncDerived a inp rv.email).calendarLink ≠ ""
          then (syncDerived a inp rv.email).calendarLink else raw.calendarLink
        meetLink := if (syncDerived a inp rv.email).meetLink ≠ ""
          then (syncDerived a inp rv.email).meetLink else raw.meetLink
        needsResponse := if (syncDerived a inp rv.email).needsResponse then "Yes" else "No"
        company := if a.company ≠ "" ∧ rv.company = "" then a.company else raw.company
        notes := if a.noteSummary = "" then raw.notes
          else concatNotes rv.notes a.noteSummary } := by
  by_cases hns : a.noteSummary = "" <;> simp [syncUpdatedRow, applyUpdateSync, hns]

/-- The found-by-name-branch row written out, as one explicit record. -/
theorem nameUpdatedRow_eq (a : Analysis) (inp : SyncInput) (rv raw : Investor) :
    nameUpdatedRow a inp rv raw =
      { raw with
        lastContact := inp.today
        email := if rv.email ≠ "" then rv.email else inp.email.from_
        meetingStatus := if (syncDerived a inp inp.email.from_).meetingStatus ≠ ""
          then (syncDerived a inp inp.email.from_).meetingStatus else raw.meetingStatus
        meetingDate := if syncFmtDate (syncDerived a inp inp.email.from_) ≠ ""
          then syncFmtDate (syncDerived a inp inp.email.from_) else raw.meetingDate
        meetingTime := if (syncDerived a inp inp.email.from_).meetingTime ≠ ""
          then (syncDerived a inp inp.email.from_).meetingTime else raw.meetingTime
        calendarLink := if (syncDerived a inp inp.email.from_).calendarLink ≠ ""
          then (syncDerived a inp inp.email.from_).calendarLink else raw.calendarLink
        meetLink := if (syncDerived a inp inp.email.from_).meetLink ≠ ""
          then (syncDerived a inp inp.email.from_).meetLink else raw.meetLink
        with_ := determineWith inp.email
        needsResponse := if (syncDerived a inp inp.email.from_).needsResponse
          then "Yes" else "No"
        notes := if a.noteSummary = "" then raw.notes
          else concatNotes rv.notes a.noteSummary } := by
  by_cases hns : a.noteSummary = "" <;> simp [nameUpdatedRow, applyUpdateByName, hns]

/-- After the update branch runs, the row satisfies every write the branch
would perform again, except possibly company and notes. -/
theorem syncUpdatedRow_facts (a : Analysis) (inp : SyncInput) (rv raw : Investor)
    (d : Derived) (hd : syncDerived a inp rv.email = d)
    (hv : rv.meetingStatus = raw.meetingStatus) :
    (syncUpdatedRow a inp rv raw).lastContact = inp.today ∧
    ((d.meetingStatus ≠ "" → (syncUpdatedRow a inp rv raw).meetingStatus = d.meetingStatus) ∧
    (syncFmtDate d ≠ "" → (syncUpdatedRow a inp rv raw).meetingDate = syncFmtDate d) ∧
    (d.meetingTime ≠ "" → (syncUpdatedRow a inp rv raw).meetingTime = d.meetingTime) ∧
    (syncUpdatedRow a inp rv raw).with_ = determineWith inp.email ∧
    (d.calendarLink ≠ "" → (syncUpdatedRow a inp rv raw).calendarLink = d.calendarLink) ∧
    (d.meetLink ≠ "" → (syncUpdatedRow a inp rv raw).meetLink = d.meetLink) ∧
    (syncUpdatedRow a inp rv raw).needsResponse =
      (if d.needsResponse then "Yes" else "No")) := by
  subst hd
  rw [syncUpdatedRow_eq]
  refine ⟨rfl, ?_, ?_, ?_, rfl, ?_, ?_, rfl⟩
  · intro h
    by_cases he : (syncDerived a inp rv.email).meetingStatus = rv.meetingStatus
    · dsimp only
      rw [if_neg (by simp [he]), ← hv, ← he]
    · dsimp only
      rw [if_pos ⟨h, he⟩]
  · intro h
    dsimp only
    rw [if_pos h]
  · intro h
    dsimp only
    rw [if_pos h]
  · intro h
    dsimp only
    rw [if_pos h]
  · intro h
    dsimp only
    rw [if_pos h]

/-- The analogous facts for the found-by-name branch. -/
theorem nameUpdatedRow_facts (a : Analysis) (inp : SyncInput) (rv raw : Investor)
    (d : Derived) (hd : syncDerived a inp inp.email.from_ = d) :
    (nameUpdatedRow a inp rv raw).lastContact = inp.today ∧
    ((d.meetingStatus ≠ "" → (nameUpdatedRow a inp rv raw).meetingStatus = d.meetingStatus) ∧
    (syncFmtDate d ≠ "" → (nameUpdatedRow a inp rv raw).meetingDate = syncFmtDate d) ∧
    (d.meetingTime ≠ "" → (nameUpdatedRow a inp rv raw).meetingTime = d.meetingTime) ∧
    (nameUpdatedRow a inp rv raw).with_ = determineWith inp.email ∧
    (d.calendarLink ≠ "" → (nameUpdatedRow a inp rv raw).calendarLink = d.calendarLink) ∧
    (d.meetLink ≠ "" → (nameUpdatedRow a inp rv raw).meetLink = d.meetLink) ∧
    (nameUpdatedRow a inp rv raw).needsResponse =
      (if d.needsResponse then "Yes" else "No")) := by
  subst hd
  rw [nameUpdatedRow_eq]
  refine ⟨rfl, ?_, ?_, ?_, rfl, ?_, ?_, rfl⟩
  all_goals (intro h; dsimp only; rw [if_pos h])

/-- The analogous facts for the freshly created row. -/
theorem syncNewRow_facts (a : Analysis) (inp : SyncInput)
    (d : Derived) (hd : syncDerived a inp inp.email.from_ = d) :
    (syncNewRow a inp).lastContact = inp.today ∧
    ((d.meetingStatus ≠ "" → (syncNewRow a inp).meetingStatus = d.meetingStatus) ∧
    (syncFmtDate d ≠ "" → (syncNewRow a inp).meetingDate = syncFmtDate d) ∧
    (d.meetingTime ≠ "" → (syncNewRow a inp).meetingTime = d.meetingTime) ∧
    (syncNewRow a inp).with_ = determineWith inp.email ∧
    (d.calendarLink ≠ "" → (syncNewRow a inp).calendarLink = d.calendarLink) ∧
    (d.meetLink ≠ "" → (syncNewRow a inp).meetLink = d.meetLink) ∧
    (syncNewRow a inp).needsResponse = (if d.needsResponse then "Yes" else "No")) := by
  subst hd
  refine ⟨rfl, ?_, fun _ => rfl, fun _ => rfl, rfl, fun _ => rfl, fun _ => rfl, rfl⟩
  intro h
  show (if (syncDerived a inp inp.email.from_).meetingStatus = "" then "Follow-up"
    else (syncDerived a inp inp.email.from_).meetingStatus) =
    (syncDerived a inp inp.email.from_).meetingStatus
  rw [if_neg h]

/-- Derivation only depends on the lower-cased contact address. -/
theorem syncDerived_lower (a : Analysis) (inp : SyncInput) (e : String) :
    syncDerived a inp (lowerStr e) = syncDerived a inp e := by
  simp [syncDerived, lowerStr_idem]

/-- Replaying the update branch on its own output touches only company
(the empty-cell backstop) and notes (the unconditional concatenation). -/
theorem syncUpdatedRow_replay (a : Analysis) (inp : SyncInput) (y : Investor) (d : Derived)
    (hd : syncDerived a inp (lowerStr y.email) = d)
    (hlc : y.lastContact = inp.today)
    (hms : d.meetingStatus ≠ "" → y.meetingStatus = d.meetingStatus)
    (hmd : syncFmtDate d ≠ "" → y.meetingDate = syncFmtDate d)
    (hmt : d.meetingTime ≠ "" → y.meetingTime = d.meetingTime)
    (hw : y.with_ = determineWith inp.email)
    (hcal : d.calendarLink ≠ "" → y.calendarLink = d.calendarLink)
    (hml : d.meetLink ≠ "" → y.meetLink = d.meetLink)
    (hnr : y.needsResponse = (if d.needsResponse then "Yes" else "No")) :
    syncUpdatedRow a inp y.view y =
      { y with
        company := if a.company ≠ "" ∧ y.company = "" then a.company else y.company
        notes := if a.noteSummary = "" then y.notes
          else concatNotes y.notes a.noteSummary } := by
  have hu : applyUpdateSync a d (syncFmtDate d) (determineWith inp.email) inp.today
      y.view y =
      { y with company := if a.company ≠ "" ∧ y.company = "" then a.company
        else y.company } :=
    applyUpdateSync_fill a d (syncFmtDate d) (determineWith inp.email) inp.today y
      hlc hms hmd hmt hw hcal hml hnr
  rw [syncUpdatedRow]
  dsimp only [view_email]
  rw [hd, hu]
  by_cases hns : a.noteSummary = ""
  · simp [hns]
  · simp [hns, view_notes]

/-- Replaying the found-by-name branch on its own output touches only
notes. -/
theorem nameUpdatedRow_replay (a : Analysis) (inp : SyncInput) (y : Investor) (d : Derived)
    (hd : syncDerived a inp inp.email.from_ = d)
    (hem : lowerStr y.email = y.email) (hne : y.email ≠ "")
    (hlc : y.lastContact = inp.today)
    (hms : d.meetingStatus ≠ "" → y.meetingStatus = d.meetingStatus)
    (hmd : syncFmtDate d ≠ "" → y.meetingDate = syncFmtDate d)
    (hmt : d.meetingTime ≠ "" → y.meetingTime = d.meetingTime)
    (hw : y.with_ = determineWith inp.email)
    (hcal : d.calendarLink ≠ "" → y.calendarLink = d.calendarLink)
    (hml : d.meetLink ≠ "" → y.meetLink = d.meetLink)
    (hnr : y.needsResponse = (if d.needsResponse then "Yes" else "No")) :
    nameUpdatedRow a inp y.view y =
      { y with notes := if a.noteSummary = "" then y.notes
        else concatNotes y.notes a.noteSummary } := by
  have hem2 : (if lowerStr y.email ≠ "" then lowerStr y.email
      else inp.email.from_) = y.email := by
    rw [hem, if_pos hne]
  have hu : applyUpdateByName d (syncFmtDate d) (determineWith inp.email) inp.today
      inp.email.from_ y.view y = y :=
    applyUpdateByName_restable d (syncFmtDate d) (determineWith inp.email) inp.today
      inp.email.from_ y hlc hem2 hms hmd hmt hw hcal hml hnr
  rw [nameUpdatedRow]
  rw [hd, hu]
  by_cases hns : a.noteSummary = ""
  · simp [hns]
  · simp [hns, view_notes]

/-! ### Email uniqueness -/

/-- Two rows are compatible when their normalized emails do not collide:
either is empty, or they differ. -/
def emailsOkR (x y : Investor) : Prop :=
  lowerStr x.email = "" ∨ lowerStr y.email = "" ∨ lowerStr x.email ≠ lowerStr y.email

instance : DecidableRel emailsOkR := fun x y => by
  unfold emailsOkR
  infer_instance

/-- No two records of the store share the same non-empty normalized
email. -/
def uniqueEmails (s : Store) : Prop := List.Pairwise emailsOkR s

instance : DecidablePred uniqueEmails := fun s => by
  unfold uniqueEmails
  infer_instance

theorem emailsOkR_symmetric : Symmetric emailsOkR := by
  intro x y h
  rcases h with h | h | h
  · right; left; exact h
  · left; exact h
  · right; right; exact h.symm

theorem emailsOkR_congrL {x x' : Investor} (h : lowerStr x.email = lowerStr x'.email)
    (y : Investor) : emailsOkR x y ↔ emailsOkR x' y := by
  unfold emailsOkR
  rw [h]

theorem emailsOkR_congrR {y y' : Investor} (h : lowerStr y.email = lowerStr y'.email)
    (x : Investor) : emailsOkR x y ↔ emailsOkR x y' := by
  unfold emailsOkR
  rw [h]

/-- Rewriting a row without changing its normalized email preserves
uniqueness. -/
theorem uniqueEmails_set_preserve (s : Store) (j : Nat) (raw y : Investor)
    (h : uniqueEmails s) (hraw : s.get? j = some raw)
    (hem : lowerStr y.email = lowerStr raw.email) :
    uniqueEmails (s.set j y) := by
  induction s generalizing j with
  | nil => simpa using h
  | cons x t ih =>
    unfold uniqueEmails at h ⊢
    rw [List.pairwise_cons] at h
    cases j with
    | zero =>
      rw [List.get?_cons_zero] at hraw
      injection hraw with hraw
      subst hraw
      simp only [List.set]
      rw [List.pairwise_cons]
      exact ⟨fun b hb => (emailsOkR_congrL hem b).mpr (h.1 b hb), h.2⟩
    | succ j' =>
      rw [List.get?_cons_succ] at hraw
      simp only [List.set]
      rw [List.pairwise_cons]
      refine ⟨?_, ih j' h.2 hraw⟩
      intro b hb
      rcases List.mem_or_eq_of_mem_set hb with hbt | hbe
      · exact h.1 b hbt
      · subst hbe
        exact (emailsOkR_congrR hem x).mpr (h.1 raw (get?_mem' hraw))

/-- Rewriting a row to an email no other row carries preserves
uniqueness. -/
theorem uniqueEmails_set_new (s : Store) (j : Nat) (raw y : Investor)
    (h : uniqueEmails s) (hraw : s.get? j = some raw)
    (hall : ∀ r ∈ s, lowerStr r.email ≠ lowerStr y.email) :
    uniqueEmails (s.set j y) := by
  induction s generalizing j with
  | nil => simpa using h
  | cons x t ih =>
    unfold uniqueEmails at h ⊢
    rw [List.pairwise_cons] at h
    cases j with
    | zero =>
      simp only [List.set]
      rw [List.pairwise_cons]
      refine ⟨?_, h.2⟩
      intro b hb
      right; right
      exact (hall b (List.mem_cons_of_mem x hb)).symm
    | succ j' =>
      rw [List.get?_cons_succ] at hraw
      simp only [List.set]
      rw [List.pairwise_cons]
      refine ⟨?_, ih j' h.2 hraw (fun r hr => hall r (List.mem_cons_of_mem x hr))⟩
      intro b hb
      rcases List.mem_or_eq_of_mem_set hb with hbt | hbe
      · exact h.1 b hbt
      · subst hbe
        right; right
        exact hall x (List.mem_cons_self x t)

/-- Appending a row whose email no existing row carries preserves
uniqueness. -/
theorem uniqueEmails_append_new (s : Store) (y : Investor)
    (h : uniqueEmails s) (hall : ∀ r ∈ s, lowerStr r.email ≠ lowerStr y.email) :
    uniqueEmails (s ++ [y]) := by
  unfold uniqueEmails at h ⊢
  rw [List.pairwise_append]
  refine ⟨h, List.pairwise_singleton _ _, ?_⟩
  intro a ha b hb
  rw [List.mem_singleton] at hb
  subst hb
  right; right
  exact hall a ha

/-! ### Branch characterizations of `processContact` -/

/-- The derivation `processContact` performs for its counterpart. -/
def backfillDerived (a : Analysis) (inp : BackfillInput) : Derived :=
  deriveMeetingBackfill a
    (getNextMeetingWithAttendee inp.now (inp.calendar (lowerStr inp.contactEmail)))
    (getLastMeetingWithAttendee inp.now (inp.calendar (lowerStr inp.contactEmail)))

/-- The note text `processContact` selects: the thread summary for
multi-message buckets, else the classifier note. -/
def backfillNotes (a : Analysis) (inp : BackfillInput) : String :=
  if inp.emails.length > 1 ∧ inp.threadSummary ≠ "" then inp.threadSummary
  else a.noteSummary

/-- The row left behind by the update branch of `processContact`. -/
def backfillUpdatedRow (a : Analysis) (inp : BackfillInput) (latest : Email)
    (rv raw : Investor) : Investor :=
  let d := backfillDerived a inp
  let u := applyUpdateBackfill a d (syncFmtDate d) (determineWithAll inp.emails)
    latest.date.date rv raw
  if backfillNotes a inp = "" then u
  else { u with notes := appendNotesText inp.today (backfillNotes a inp) rv.notes }

/-- The row appended by the create branch of `processContact`. -/
def backfillNewRow (a : Analysis) (inp : BackfillInput) (latest : Email) : Investor :=
  let d := backfillDerived a inp
  newInvestorBackfill a d
    (if a.investorName = "" then latest.fromName else a.investorName)
    inp.contactEmail (syncFmtDate d) (determineWithAll inp.emails) latest.date.date
    (backfillNotes a inp)

theorem processContact_update_store (inp : BackfillInput) (s : Store) (a : Analysis)
    (latest : Email) (j : Nat) (rv raw : Investor)
    (hL : (sortEmailsByDate inp.emails).getLast? = some latest)
    (hA : inp.analysis = some a) (hR : a.isRelevant = true) (hV : a.isVCInvestor = true)
    (hF : findInvestorByEmail s inp.contactEmail = some (j, rv))
    (hraw : s.get? j = some raw) :
    processContact inp s =
      (s.set j (backfillUpdatedRow a inp latest rv raw), .updated rv.name) := by
  have hns0 : (if inp.emails.length > 1 ∧ inp.threadSummary ≠ "" then inp.threadSummary
      else a.noteSummary) = backfillNotes a inp := rfl
  by_cases hns : backfillNotes a inp = ""
  · rw [backfillNotes] at hns
    simp [processContact, hL, hA, hR, hV, hF, hns, updateInvestor_eq_set _ hraw,
      backfillUpdatedRow, backfillDerived, backfillNotes, syncFmtDate]
  · rw [backfillNotes] at hns
    simp only [processContact, hL, hA, hR, hV, hF, hns]
    rw [updateInvestor_eq_set _ hraw]
    rw [updateInvestor_eq_set _ (get?_set_self' hraw)]
    simp [hns, List.set_set, backfillUpdatedRow, backfillDerived, backfillNotes,
      syncFmtDate]

theorem processContact_create_store (inp : BackfillInput) (s : Store) (a : Analysis)
    (latest : Email)
    (hL : (sortEmailsByDate inp.emails).getLast? = some latest)
    (hA : inp.analysis = some a) (hR : a.isRelevant = true) (hV : a.isVCInvestor = true)
    (hF : findInvestorByEmail s inp.contactEmail = none) :
    processContact inp s = (s ++ [backfillNewRow a inp latest],
      .added (if a.investorName = "" then latest.fromName else a.investorName)) := by
  simp [processContact, hL, hA, hR, hV, hF, addInvestor, backfillNewRow,
    backfillDerived, backfillNotes, syncFmtDate]

theorem backfillUpdatedRow_email (a : Analysis) (inp : BackfillInput) (latest : Email)
    (rv raw : Investor) :
    (backfillUpdatedRow a inp latest rv raw).email = raw.email := by
  by_cases hns : backfillNotes a inp = "" <;>
    simp [backfillUpdatedRow, applyUpdateBackfill, hns]

theorem backfillNewRow_email (a : Analysis) (inp : BackfillInput) (latest : Email) :
    (backfillNewRow a inp latest).email = inp.contactEmail := rfl

/-- Every store `processEmail` can produce: unchanged, a row rewritten
with its normalized email kept, a row rewritten to the counterpart email
no row carried, or the counterpart email appended when no row carried
it. -/
theorem processEmail_store_shape (inp : SyncInput) (s : Store) :
    (processEmail inp s).1 = s ∨
    (∃ j raw z, s.get? j = some raw ∧ lowerStr z.email = lowerStr raw.email ∧
      (processEmail inp s).1 = s.set j z) ∨
    (∃ j raw z, s.get? j = some raw ∧
      findIdxAndVal (emailEqP (lowerStr inp.email.from_)) s = none ∧
      lowerStr z.email = lowerStr inp.email.from_ ∧
      (processEmail inp s).1 = s.set j z) ∨
    (∃ z, lowerStr z.email = lowerStr inp.email.from_ ∧
      findIdxAndVal (emailEqP (lowerStr inp.email.from_)) s = none ∧
      (processEmail inp s).1 = s ++ [z]) := by
  cases hA : inp.analysis with
  | none =>
    left
    simp [processEmail, hA]
  | some a =>
    by_cases hR : a.isRelevant = true
    · by_cases hV : a.isVCInvestor = true
      · cases hF : findInvestorByEmail s inp.email.from_ with
        | some x =>
          obtain ⟨j, rv⟩ := x
          obtain ⟨raw, hraw, hrv⟩ := findInvestorByEmail_some_raw s _ j rv hF
          right; left
          refine ⟨j, raw, syncUpdatedRow a inp rv raw, hraw, ?_, ?_⟩
          · rw [syncUpdatedRow_email]
          · rw [processEmail_update_store inp s a j rv raw hA hR hV hF hraw]
        | none =>
          cases hN : findInvestorByName s
              (if a.investorName = "" then inp.email.fromName else a.investorName) with
          | some x =>
            obtain ⟨j, rv⟩ := x
            obtain ⟨raw, hraw, hrv⟩ := findInvestorByName_some_raw s _ j rv hN
            by_cases hre : rv.email = ""
            · right; right; left
              refine ⟨j, raw, nameUpdatedRow a inp rv raw, hraw,
                findInvestorByEmail_none_stage1 s _ hF, ?_, ?_⟩
              · rw [nameUpdatedRow_email, if_neg (by simp [hre])]
              · rw [processEmail_name_store inp s a j rv raw hA hR hV hF hN hraw]
            · right; left
              refine ⟨j, raw, nameUpdatedRow a inp rv raw, hraw, ?_, ?_⟩
              · rw [nameUpdatedRow_email, if_pos hre, hrv, view_email, lowerStr_idem]
              · rw [processEmail_name_store inp s a j rv raw hA hR hV hF hN hraw]
          | none =>
            right; right; right
            refine ⟨syncNewRow a inp, ?_, findInvestorByEmail_none_stage1 s _ hF, ?_⟩
            · rw [syncNewRow_email]
            · rw [processEmail_create_store inp s a hA hR hV hF hN]
      · rw [Bool.not_eq_true] at hV
        left
        simp [processEmail, hA, hR, hV]
    · rw [Bool.not_eq_true] at hR
      left
      simp [processEmail, hA, hR]

/-- Every store `processContact` can produce: unchanged, a row rewritten
with its email kept verbatim, or the counterpart email appended when no
row carried it. -/
theorem processContact_store_shape (inp : BackfillInput) (s : Store) :
    (processContact inp s).1 = s ∨
    (∃ j raw z, s.get? j = some raw ∧ z.email = raw.email ∧
      (processContact inp s).1 = s.set j z) ∨
    (∃ z, lowerStr z.email = lowerStr inp.contactEmail ∧
      findIdxAndVal (emailEqP (lowerStr inp.contactEmail)) s = none ∧
      (processContact inp s).1 = s ++ [z]) := by
  cases hL : (sortEmailsByDate inp.emails).getLast? with
  | none =>
    left
    simp [processContact, hL]
  | some latest =>
    cases hA : inp.analysis with
    | none =>
      left
      simp [processContact, hL, hA]
    | some a =>
      by_cases hR : a.isRelevant = true
      · by_cases hV : a.isVCInvestor = true
        · cases hF : findInvestorByEmail s inp.contactEmail with
          | some x =>
            obtain ⟨j, rv⟩ := x
            obtain ⟨raw, hraw, hrv⟩ := findInvestorByEmail_some_raw s _ j rv hF
            right; left
            refine ⟨j, raw, backfillUpdatedRow a inp latest rv raw, hraw,
              backfillUpdatedRow_email a inp latest rv raw, ?_⟩
            rw [processContact_update_store inp s a latest j rv raw hL hA hR hV hF hraw]
          | none =>
            right; right
            refine ⟨backfillNewRow a inp latest, ?_,
              findInvestorByEmail_none_stage1 s _ hF, ?_⟩
            · rw [backfillNewRow_email]
            · rw [processContact_create_store inp s a latest hL hA hR hV hF]
        · rw [Bool.not_eq_true] at hV
          left
          simp [processContact, hL, hA, hR, hV]
      · rw [Bool.not_eq_true] at hR
        left
        simp [processContact, hL, hA, hR]

/-- One sync step preserves email uniqueness. -/
theorem processEmail_preserves_unique (inp : SyncInput) (s : Store)
    (h : uniqueEmails s) : uniqueEmails (processEmail inp s).1 := by
  rcases processEmail_store_shape inp s with
    h0 | ⟨j, raw, z, hraw, hem, hst⟩ | ⟨j, raw, z, hraw, hnone, hem, hst⟩ |
    ⟨z, hem, hnone, hst⟩
  · rw [h0]
    exact h
  · rw [hst]
    exact uniqueEmails_set_preserve s j raw z h hraw hem
  · rw [hst]
    refine uniqueEmails_set_new s j raw z h hraw ?_
    intro r hr
    have hf := findIdxAndVal_none_iff.mp hnone r hr
    simp only [emailEqP, decide_eq_false_iff_not] at hf
    rw [hem]
    exact hf
  · rw [hst]
    refine uniqueEmails_append_new s z h ?_
    intro r hr
    have hf := findIdxAndVal_none_iff.mp hnone r hr
    simp only [emailEqP, decide_eq_false_iff_not] at hf
    rw [hem]
    exact hf

/-- One backfill step preserves email uniqueness. -/
theorem processContact_preserves_unique (inp : BackfillInput) (s : Store)
    (h : uniqueEmails s) : uniqueEmails (processContact inp s).1 := by
  rcases processContact_store_shape inp s with
    h0 | ⟨j, raw, z, hraw, hem, hst⟩ | ⟨z, hem, hnone, hst⟩
  · rw [h0]
    exact h
  · rw [hst]
    exact uniqueEmails_set_preserve s j raw z h hraw (by rw [hem])
  · rw [hst]
    refine uniqueEmails_append_new s z h ?_
    intro r hr
    have hf := findIdxAndVal_none_iff.mp hnone r hr
    simp only [emailEqP, decide_eq_false_iff_not] at hf
    rw [hem]
    exact hf

/-- `processEmail` reports a create only when the email resolver came up
empty. -/
theorem processEmail_added_find_none (inp : SyncInput) (s : Store) (nm : String)
    (h : (processEmail inp s).2 = .added nm) :
    findInvestorByEmail s inp.email.from_ = none := by
  cases hF : findInvestorByEmail s inp.email.from_ with
  | none => rfl
  | some x =>
    obtain ⟨j, rv⟩ := x
    exfalso
    cases hA : inp.analysis with
    | none => simp [processEmail, hA] at h
    | some a =>
      by_cases hR : a.isRelevant = true
      · by_cases hV : a.isVCInvestor = true
        · obtain ⟨raw, hraw, _⟩ := findInvestorByEmail_some_raw s _ j rv hF
          rw [processEmail_update_store inp s a j rv raw hA hR hV hF hraw] at h
          simp at h
        · rw [Bool.not_eq_true] at hV
          simp [processEmail, hA, hR, hV] at h
      · rw [Bool.not_eq_true] at hR
        simp [processEmail, hA, hR] at h

/-- `processContact` reports a create only when the email resolver came up
empty. -/
theorem processContact_added_find_none (inp : BackfillInput) (s : Store) (nm : String)
    (h : (processContact inp s).2 = .added nm) :
    findInvestorByEmail s inp.contactEmail = none := by
  cases hF : findInvestorByEmail s inp.contactEmail with
  | none => rfl
  | some x =>
    obtain ⟨j, rv⟩ := x
    exfalso
    cases hL : (sortEmailsByDate inp.emails).getLast? with
    | none => simp [processContact, hL] at h
    | some latest =>
      cases hA : inp.analysis with
      | none => simp [processContact, hL, hA] at h
      | some a =>
        by_cases hR : a.isRelevant = true
        · by_cases hV : a.isVCInvestor = true
          · obtain ⟨raw, hraw, _⟩ := findInvestorByEmail_some_raw s _ j rv hF
            rw [processContact_update_store inp s a latest j rv raw hL hA hR hV hF hraw]
              at h
            simp at h
          · rw [Bool.not_eq_true] at hV
            simp [processContact, hL, hA, hR, hV] at h
        · rw [Bool.not_eq_true] at hR
          simp [processContact, hL, hA, hR] at h

/-- Stores reachable from the empty sheet by sync cycles, backfill
cycles, and the batch-final reordering (`sortSheet`, a permutation of the
data rows). -/
inductive ReachableStore : Store → Prop where
  | empty : ReachableStore []
  | sync : ∀ (inp : SyncInput) (s : Store), ReachableStore s →
      ReachableStore (processEmail inp s).1
  | backfill : ∀ (inp : BackfillInput) (s : Store), ReachableStore s →
      ReachableStore (processContact inp s).1
  | reorder : ∀ (s t : Store), ReachableStore s → s.Perm t → ReachableStore t

/-- C3 (confirmed).  Email uniqueness invariant: every store reachable by
any sequence of sync or backfill cycles (and batch-final reorderings)
holds no two records with the same non-empty normalized email; and when
the counterpart's normalized email already appears on a record, neither
`processEmail` nor `processContact` reports a create — the path is an
update, never a second record with that email. -/
theorem C3_email_uniqueness_invariant :
    (∀ s, ReachableStore s → uniqueEmails s) ∧
    (∀ (inp : SyncInput) (s : Store),
      (∃ raw ∈ s, raw.email ≠ "" ∧ lowerStr raw.email = lowerStr inp.email.from_) →
      ∀ nm, (processEmail inp s).2 ≠ SyncAction.added nm) ∧
    (∀ (inp : BackfillInput) (s : Store),
      (∃ raw ∈ s, raw.email ≠ "" ∧ lowerStr raw.email = lowerStr inp.contactEmail) →
      ∀ nm, (processContact inp s).2 ≠ SyncAction.added nm) := by
  refine ⟨?_, ?_, ?_⟩
  · intro s hs
    induction hs with
    | empty => exact List.Pairwise.nil
    | sync inp s hs ih => exact processEmail_preserves_unique inp s ih
    | backfill inp s hs ih => exact processContact_preserves_unique inp s ih
    | reorder s t hs hp ih => exact List.Pairwise.perm ih hp (fun hxy => emailsOkR_symmetric hxy)
  · intro inp s hex nm h
    obtain ⟨raw, hmem, hne, heq⟩ := hex
    have hF := processEmail_added_find_none inp s nm h
    have h1 := findIdxAndVal_none_iff.mp (findInvestorByEmail_none_stage1 s _ hF)
      raw hmem
    simp only [emailEqP, decide_eq_false_iff_not] at h1
    exact h1 heq
  · intro inp s hex nm h
    obtain ⟨raw, hmem, hne, heq⟩ := hex
    have hF := processContact_added_find_none inp s nm h
    have h1 := findIdxAndVal_none_iff.mp (findInvestorByEmail_none_stage1 s _ hF)
      raw hmem
    simp only [emailEqP, decide_eq_false_iff_not] at h1
    exact h1 heq

/-- A row holding the counterpart's email in mixed case. -/
def wRowC3 : Investor := ⟨"Jane Doe", "Jane@X.com", "", "", "", "", "", "", "", "", "", ""⟩

/-- A one-record store holding that row. -/
def wStoreC3 : Store := [wRowC3]

/-- A message from the same address, differently cased, with a relevant
classifier signal. -/
def wInputC3 : SyncInput :=
  ⟨⟨"m3", "t3", "jane@x.com", "Jane Doe", "avi@zeitgeist.vc", "Re", "b",
    ⟨"2025-01-02", 9, 0, 80⟩⟩,
   some ⟨"Jane Doe", "Acme", "", "", "- replied", true, true⟩,
   fun _ => [], 0, "2025-01-02"⟩

theorem C3_witness :
    uniqueEmails ((processEmail wInputC3 []).1) ∧
    ∀ nm, (processEmail wInputC3 wStoreC3).2 ≠ SyncAction.added nm :=
  ⟨C3_email_uniqueness_invariant.1 _
      (ReachableStore.sync wInputC3 [] ReachableStore.empty),
   C3_email_uniqueness_invariant.2.1 wInputC3 wStoreC3
      ⟨wRowC3, by decide, by decide, by decide⟩⟩

theorem get?_concat_length' {α : Type} (l : List α) (a : α) :
    (l ++ [a]).get? l.length = some a := by
  induction l with
  | nil => rfl
  | cons x t ih => simpa using ih

/-- C2 (corrected).  Replaying an identical message and calendar signal
through a second `processEmail`, with the store already holding the result
of the first, produces no new record creation: a skipped unit replays to
the identical result, and a processed unit replays to an update of the row
the first pass wrote, whose written values equal the stored values, except
that the same note entry is appended to the notes again (notes are not
deduplicated) and an empty organization cell may be filled on the second
pass. -/
theorem C2_amended_second_cycle :
    (∀ (inp : SyncInput) (s : Store) (reason : String),
      (processEmail inp s).2 = .skipped reason →
      processEmail inp (processEmail inp s).1 = processEmail inp s) ∧
    (∀ (inp : SyncInput) (s : Store) (a : Analysis),
      inp.analysis = some a → a.isRelevant = true → a.isVCInvestor = true →
      ∃ j y c2, ((processEmail inp s).1).get? j = some y ∧
        processEmail inp ((processEmail inp s).1) =
          (((processEmail inp s).1).set j
            { y with
              company := c2,
              notes := if a.noteSummary = "" then y.notes
                else concatNotes y.notes a.noteSummary },
           SyncAction.updated y.name) ∧
        (c2 = y.company ∨ (y.company = "" ∧ a.company ≠ "" ∧ c2 = a.company))) := by
  constructor
  · intro inp s reason h
    rw [processEmail_skipped_store_eq inp s reason h]
  · intro inp s a hA hR hV
    cases hF : findInvestorByEmail s inp.email.from_ with
    | some x =>
      obtain ⟨j, rv⟩ := x
      obtain ⟨raw, hraw, hrv⟩ := findInvestorByEmail_some_raw s _ j rv hF
      have h1run := processEmail_update_store inp s a j rv raw hA hR hV hF hraw
      have hs1 : (processEmail inp s).1 = s.set j (syncUpdatedRow a inp rv raw) := by
        rw [h1run]
      have hF2 : findInvestorByEmail (s.set j (syncUpdatedRow a inp rv raw))
          inp.email.from_ = some (j, (syncUpdatedRow a inp rv raw).view) :=
        findInvestorByEmail_set_stable s inp.email.from_ j rv raw _ hF hraw
          (syncUpdatedRow_email a inp rv raw) (syncUpdatedRow_name a inp rv raw)
      have hraw2 : (s.set j (syncUpdatedRow a inp rv raw)).get? j =
          some (syncUpdatedRow a inp rv raw) := get?_set_self' hraw
      have h2run := processEmail_update_store inp
        (s.set j (syncUpdatedRow a inp rv raw)) a j
        (syncUpdatedRow a inp rv raw).view (syncUpdatedRow a inp rv raw)
        hA hR hV hF2 hraw2
      have hd : syncDerived a inp (lowerStr (syncUpdatedRow a inp rv raw).email) =
          syncDerived a inp rv.email := by
        rw [syncUpdatedRow_email, hrv, view_email]
      obtain ⟨f1, f2, f3, f4, f5, f6, f7, f8⟩ :=
        syncUpdatedRow_facts a inp rv raw (syncDerived a inp rv.email) rfl
          (by rw [hrv]; rfl)
      have hrepl := syncUpdatedRow_replay a inp (syncUpdatedRow a inp rv raw)
        (syncDerived a inp rv.email) hd f1 f2 f3 f4 f5 f6 f7 f8
      refine ⟨j, syncUpdatedRow a inp rv raw,
        (if a.company ≠ "" ∧ (syncUpdatedRow a inp rv raw).company = "" then a.company
          else (syncUpdatedRow a inp rv raw).company), ?_, ?_, ?_⟩
      · rw [hs1]
        exact hraw2
      · rw [hs1, h2run, hrepl, view_name]
      · by_cases hcc : a.company ≠ "" ∧ (syncUpdatedRow a inp rv raw).company = ""
        · right
          exact ⟨hcc.2, hcc.1, if_pos hcc⟩
        · left
          exact if_neg hcc
    | none =>
      cases hN : findInvestorByName s
          (if a.investorName = "" then inp.email.fromName else a.investorName) with
      | some x =>
        obtain ⟨j, rv⟩ := x
        obtain ⟨raw, hraw, hrv⟩ := findInvestorByName_some_raw s _ j rv hN
        have h1run := processEmail_name_store inp s a j rv raw hA hR hV hF hN hraw
        have hs1 : (processEmail inp s).1 = s.set j (nameUpdatedRow a inp rv raw) := by
          rw [h1run]
        have hraw2 : (s.set j (nameUpdatedRow a inp rv raw)).get? j =
            some (nameUpdatedRow a inp rv raw) := get?_set_self' hraw
        obtain ⟨f1, f2, f3, f4, f5, f6, f7, f8⟩ :=
          nameUpdatedRow_facts a inp rv raw (syncDerived a inp inp.email.from_) rfl
        by_cases hre : rv.email = ""
        · have hze : (nameUpdatedRow a inp rv raw).email = inp.email.from_ := by
            rw [nameUpdatedRow_email, if_neg (by simp [hre])]
          have hF2 : findInvestorByEmail (s.set j (nameUpdatedRow a inp rv raw))
              inp.email.from_ = some (j, (nameUpdatedRow a inp rv raw).view) :=
            findInvestorByEmail_hit_new s inp.email.from_ j raw _
              (findInvestorByEmail_none_stage1 s _ hF) hraw (by rw [hze])
          have h2run := processEmail_update_store inp
            (s.set j (nameUpdatedRow a inp rv raw)) a j
            (nameUpdatedRow a inp rv raw).view (nameUpdatedRow a inp rv raw)
            hA hR hV hF2 hraw2
          have hd : syncDerived a inp (lowerStr (nameUpdatedRow a inp rv raw).email) =
              syncDerived a inp inp.email.from_ := by
            rw [hze, syncDerived_lower]
          have hrepl := syncUpdatedRow_replay a inp (nameUpdatedRow a inp rv raw)
            (syncDerived a inp inp.email.from_) hd f1 f2 f3 f4 f5 f6 f7 f8
          refine ⟨j, nameUpdatedRow a inp rv raw,
            (if a.company ≠ "" ∧ (nameUpdatedRow a inp rv raw).company = ""
              then a.company else (nameUpdatedRow a inp rv raw).company), ?_, ?_, ?_⟩
          · rw [hs1]
            exact hraw2
          · rw [hs1, h2run, hrepl, view_name]
          · by_cases hcc : a.company ≠ "" ∧ (nameUpdatedRow a inp rv raw).company = ""
            · right
              exact ⟨hcc.2, hcc.1, if_pos hcc⟩
            · left
              exact if_neg hcc
        · have hze : (nameUpdatedRow a inp rv raw).email = rv.email := by
            rw [nameUpdatedRow_email, if_pos hre]
          have hF2 : findInvestorByEmail (s.set j (nameUpdatedRow a inp rv raw))
              inp.email.from_ = none :=
            findInvestorByEmail_set_none s inp.email.from_ j raw _ hF hraw
              (by rw [hze, hrv, view_email, lowerStr_idem])
              (nameUpdatedRow_name a inp rv raw)
          have hN2 : findInvestorByName (s.set j (nameUpdatedRow a inp rv raw))
              (if a.investorName = "" then inp.email.fromName else a.investorName) =
              some (j, (nameUpdatedRow a inp rv raw).view) :=
            findInvestorByName_set_stable s _ j rv raw _ hN hraw
              (nameUpdatedRow_name a inp rv raw)
          have h2run := processEmail_name_store inp
            (s.set j (nameUpdatedRow a inp rv raw)) a j
            (nameUpdatedRow a inp rv raw).view (nameUpdatedRow a inp rv raw)
            hA hR hV hF2 hN2 hraw2
          have hem : lowerStr (nameUpdatedRow a inp rv raw).email =
              (nameUpdatedRow a inp rv raw).email := by
            rw [hze, hrv, view_email, lowerStr_idem]
          have hne : (nameUpdatedRow a inp rv raw).email ≠ "" := by
            rw [hze]
            exact hre
          have hrepl := nameUpdatedRow_replay a inp (nameUpdatedRow a inp rv raw)
            (syncDerived a inp inp.email.from_) rfl hem hne f1 f2 f3 f4 f5 f6 f7 f8
          refine ⟨j, nameUpdatedRow a inp rv raw,
            (nameUpdatedRow a inp rv raw).company, ?_, ?_, Or.inl rfl⟩
          · rw [hs1]
            exact hraw2
          · rw [hs1, h2run, hrepl, view_name]
      | none =>
        have h1run := processEmail_create_store inp s a hA hR hV hF hN
        have hs1 : (processEmail inp s).1 = s ++ [syncNewRow a inp] := by
          rw [h1run]
        have hraw2 : (s ++ [syncNewRow a inp]).get? s.length =
            some (syncNewRow a inp) := get?_concat_length' s _
        have hF2 : findInvestorByEmail (s ++ [syncNewRow a inp]) inp.email.from_ =
            some (s.length, (syncNewRow a inp).view) :=
          findInvestorByEmail_append_new s inp.email.from_ _ hF
            (by rw [syncNewRow_email])
        have h2run := processEmail_update_store inp (s ++ [syncNewRow a inp]) a
          s.length (syncNewRow a inp).view (syncNewRow a inp) hA hR hV hF2 hraw2
        have hd : syncDerived a inp (lowerStr (syncNewRow a inp).email) =
            syncDerived a inp inp.email.from_ := by
          rw [syncNewRow_email, syncDerived_lower]
        obtain ⟨f1, f2, f3, f4, f5, f6, f7, f8⟩ :=
          syncNewRow_facts a inp (syncDerived a inp inp.email.from_) rfl
        have hrepl := syncUpdatedRow_replay a inp (syncNewRow a inp)
          (syncDerived a inp inp.email.from_) hd f1 f2 f3 f4 f5 f6 f7 f8
        refine ⟨s.length, syncNewRow a inp,
          (if a.company ≠ "" ∧ (syncNewRow a inp).company = "" then a.company
            else (syncNewRow a inp).company), ?_, ?_, ?_⟩
        · rw [hs1]
          exact hraw2
        · rw [hs1, h2run, hrepl, view_name]
        · by_cases hcc : a.company ≠ "" ∧ (syncNewRow a inp).company = ""
          · right
            exact ⟨hcc.2, hcc.1, if_pos hcc⟩
          · left
            exact if_neg hcc

/-- The classifier signal used by the replay counterexample: relevant VC
contact with a note. -/
def wAnalysisC2 : Analysis := ⟨"Jane Doe", "", "", "", "- note", true, true⟩

/-- A message replayed twice through `processEmail`. -/
def wInputC2 : SyncInput :=
  ⟨⟨"m2", "t2", "jane@fund.com", "Jane Doe", "avi@zeitgeist.vc", "Hi", "b",
    ⟨"2025-01-03", 10, 0, 50⟩⟩,
   some wAnalysisC2, fun _ => [], 0, "2025-01-03"⟩

theorem C2_counterexample :
    (((processEmail wInputC2 []).1).get? 0).map Investor.notes = some "- note" ∧
    (((processEmail wInputC2 ((processEmail wInputC2 []).1)).1).get? 0).map
      Investor.notes = some ("- note" ++ "\n" ++ "- note") := by
  constructor
  · decide
  · decide

theorem C2_witness :
    ∃ j y c2, ((processEmail wInputC2 []).1).get? j = some y ∧
      processEmail wInputC2 ((processEmail wInputC2 []).1) =
        (((processEmail wInputC2 []).1).set j
          { y with
            company := c2,
            notes := if wAnalysisC2.noteSummary = "" then y.notes
              else concatNotes y.notes wAnalysisC2.noteSummary },
         SyncAction.updated y.name) ∧
      (c2 = y.company ∨
        (y.company = "" ∧ wAnalysisC2.company ≠ "" ∧ c2 = wAnalysisC2.company)) :=
  C2_amended_second_cycle.2 wInputC2 [] wAnalysisC2 rfl rfl rfl

end ZCRM
